import Mathlib

/-!
# Verification of the Lunas embedded-language bridge

A shallow embedding, in Lean 4, of the text-processing core of the
`lunas-vscode` language server:

* the block extractor (`src/server/utils/lunas-blocks.ts`:
  `extractScript`, `extractHTML`, `extractStyle`),
* the template directive parser (`parseTemplateBlocks` in
  `src/server/main.ts`),
* the virtual-script synthesizer (`generateVirtualTsFromBlks`),
* the diagnostic result mapper and the deduplication step of
  `documents.onDidChangeContent`,
* the virtual-file store discipline (content/version maps) and the
  transient install/query/restore flow of the point-query handlers.

Text is modelled as `List Char`.  JavaScript regular expressions used by
the source are translated into explicit scanner functions whose
backtracking behaviour is reproduced faithfully (documented at each
definition).  Positions follow the `vscode-languageserver-textdocument`
implementation of `positionAt` / `offsetAt`.
-/

namespace Lunas

/-- ASCII whitespace as matched by the JavaScript `\s` character class
(the Unicode space members are not reachable from the inputs considered
here). -/
def jsWs (c : Char) : Bool :=
  c = ' ' || c = '\t' || c = '\n' || c = '\r' || c = '\x0b' || c = '\x0c'

/-- JavaScript word characters `\w` = `[A-Za-z0-9_]`. -/
def jsWord (c : Char) : Bool :=
  ('a' ≤ c && c ≤ 'z') || ('A' ≤ c && c ≤ 'Z') || ('0' ≤ c && c ≤ '9') || c = '_'

/-- `" ".repeat n` -/
def spaces (n : Nat) : List Char := List.replicate n ' '

/-- `"\n"`-splitting as JavaScript `String.prototype.split("\n")` does it:
`n` newlines produce `n + 1` lines. -/
def splitNl : List Char → List (List Char)
  | [] => [[]]
  | c :: t =>
    if c = '\n' then [] :: splitNl t
    else
      match splitNl t with
      | [] => [[c]]
      | l :: ls => (c :: l) :: ls

/-- `Array.prototype.join("\n")`. -/
def joinNl : List (List Char) → List Char
  | [] => []
  | [l] => l
  | l :: ls => l ++ '\n' :: joinNl ls

theorem splitNl_ne_nil (t : List Char) : splitNl t ≠ [] := by
  induction t with
  | nil => simp [splitNl]
  | cons c t ih =>
    simp only [splitNl]
    split
    · simp
    · cases h : splitNl t with
      | nil => simp
      | cons l ls => simp

theorem joinNl_splitNl (t : List Char) : joinNl (splitNl t) = t := by
  induction t with
  | nil => rfl
  | cons c t ih =>
    simp only [splitNl]
    split
    · rename_i hc
      subst hc
      cases h : splitNl t with
      | nil => exact absurd h (splitNl_ne_nil t)
      | cons l ls => rw [h] at ih; simp [joinNl, ih]
    · cases h : splitNl t with
      | nil => exact absurd h (splitNl_ne_nil t)
      | cons l ls =>
        rw [h] at ih
        cases ls with
        | nil => simp_all [joinNl]
        | cons l' ls' => simp_all [joinNl]

/-- Number of newline characters in `t`; `splitNl` produces one more line. -/
theorem splitNl_length (t : List Char) :
    (splitNl t).length = t.count '\n' + 1 := by
  induction t with
  | nil => rfl
  | cons c t ih =>
    simp only [splitNl]
    split
    · rename_i hc; subst hc; simp [List.count_cons, ih]
    · rename_i hc
      cases h : splitNl t with
      | nil => exact absurd h (splitNl_ne_nil t)
      | cons l ls =>
        rw [h] at ih
        simp only [List.length_cons] at ih ⊢
        have : (c = '\n') = False := by simp [hc]
        simp [List.count_cons, hc, ih]

/-- Total text length represented by a non-empty line list (lines plus the
newline separators between them). -/
def totalLen : List (List Char) → Nat
  | [] => 0
  | [l] => l.length
  | l :: ls => l.length + 1 + totalLen ls

theorem totalLen_splitNl (t : List Char) : totalLen (splitNl t) = t.length := by
  induction t with
  | nil => rfl
  | cons c t ih =>
    simp only [splitNl]
    split
    · rename_i hc
      cases h : splitNl t with
      | nil => exact absurd h (splitNl_ne_nil t)
      | cons l ls => rw [h] at ih; simp [totalLen, ← ih]; omega
    · cases h : splitNl t with
      | nil => exact absurd h (splitNl_ne_nil t)
      | cons l ls =>
        rw [h] at ih
        cases ls with
        | nil => simp [totalLen] at ih ⊢; omega
        | cons l' ls' => simp [totalLen] at ih ⊢; omega

/-- `TextDocument.positionAt` of `vscode-languageserver-textdocument`,
expressed over the line decomposition of the document: the offset is first
clamped to the document length, then located inside the line table
(an offset pointing at a `'\n'` belongs to the line that the newline
terminates). Returns `(line, character)`. -/
def posAtLines : List (List Char) → Nat → Nat × Nat
  | [], _ => (0, 0)
  | [l], off => (0, min off l.length)
  | l :: l' :: ls, off =>
    if off ≤ l.length then (0, off)
    else
      let p := posAtLines (l' :: ls) (off - (l.length + 1))
      (p.1 + 1, p.2)

/-- `TextDocument.offsetAt` of `vscode-languageserver-textdocument`: the
line index is clamped to the line table, the character is clamped between
the line start and the next line start. -/
def offAtLines : List (List Char) → Nat × Nat → Nat
  | [], _ => 0
  | [l], p => if p.1 = 0 then min p.2 l.length else l.length
  | l :: l' :: ls, p =>
    match p.1 with
    | 0 => min p.2 (l.length + 1)
    | line + 1 => l.length + 1 + offAtLines (l' :: ls) (line, p.2)

/-- Round trip: converting a valid offset to a position and back is the
identity. This is the well-definedness fact behind the result mapper's
`offsetAt ∘ positionAt` usage. -/
theorem offAt_posAt (ls : List (List Char)) (off : Nat)
    (h : off ≤ totalLen ls) (hne : ls ≠ []) :
    offAtLines ls (posAtLines ls off) = off := by
  induction ls generalizing off with
  | nil => exact absurd rfl hne
  | cons l ls ih =>
    cases ls with
    | nil =>
      simp only [totalLen] at h
      simp only [posAtLines, offAtLines]
      simp [Nat.min_eq_left h]
    | cons l' ls' =>
      simp only [totalLen] at h
      simp only [posAtLines]
      by_cases hoff : off ≤ l.length
      · simp only [hoff, if_true, offAtLines]
        omega
      · simp only [hoff, if_false]
        have ih' := ih (off - (l.length + 1)) (by omega) (by simp)
        rcases hp : posAtLines (l' :: ls') (off - (l.length + 1)) with ⟨pl, pc⟩
        rw [hp] at ih'
        simp only [offAtLines]
        omega

/-! ## Block extractor (`src/server/utils/lunas-blocks.ts`)

The three extractors locate their region with the regular expressions

* `extractScript` : `/script:\s*\n([\s\S]*?)(?:\n\s*style:|$)/`
* `extractHTML`   : `/html:\s*\n([\s\S]*?)(?:\n\s*(?:script:|style:)|$)/`
* `extractStyle`  : `/style:\s*\n([\s\S]*?)(?:\n\s*(script:|html:)|$)/`

They share one shape: a literal label, `\s*\n` (greedy whitespace that
backtracks to the last newline of the maximal whitespace run), a lazy
capture, and a terminator alternation tried at every position from the
capture start (earliest wins), with `$` as the fallback.  The scanners
below reproduce exactly that backtracking semantics. -/

/-- First index at which `needle` occurs in `hay` (JS `indexOf`),
as an `Option`. -/
def listIndexOf (hay needle : List Char) : Option Nat :=
  if needle.isPrefixOf hay then some 0
  else
    match hay with
    | [] => none
    | _ :: t => (listIndexOf t needle).map (· + 1)

/-- JS `String.prototype.indexOf`: `-1` when absent. -/
def jsIndexOf (hay needle : List Char) : Int :=
  match listIndexOf hay needle with
  | some n => (n : Int)
  | none => -1

/-- Length of the prefix of `l` up to and including the *last* `'\n'` of
`l`, when `l` contains one.  This is how far the greedy `\s*\n` advances
inside a maximal whitespace run. -/
def lastNlPrefixLen : List Char → Option Nat
  | [] => none
  | c :: t =>
    match lastNlPrefixLen t with
    | some n => some (n + 1)
    | none => if c = '\n' then some 1 else none

/-- Match of `label ++ \s*\n` against the suffix `s`: returns the offset
(relative to `s`) at which the lazy capture group begins. -/
def labelBodyStart (label : List Char) (s : List Char) : Option Nat :=
  if label.isPrefixOf s then
    match lastNlPrefixLen ((s.drop label.length).takeWhile jsWs) with
    | some n => some (label.length + n)
    | none => none
  else none

/-- Leftmost position at which the label-plus-newline head of the regex
matches; returns `(match index, capture start index)`, both absolute. -/
def findLabelMatch (label : List Char) : List Char → Nat → Option (Nat × Nat)
  | [], _ => none
  | s@(_ :: t), p =>
    match labelBodyStart label s with
    | some n => some (p, p + n)
    | none => findLabelMatch label t (p + 1)

/-- Does the terminator `(?:\n\s*(?:t₁|t₂|…))` match at the start of the
suffix `s`?  The `\s*` backtracks, so any prefix of the whitespace run
after the newline may be consumed. -/
def termAt (terms : List (List Char)) (s : List Char) : Bool :=
  match s with
  | '\n' :: rest =>
    (List.range ((rest.takeWhile jsWs).length + 1)).any fun j =>
      terms.any fun t => t.isPrefixOf (rest.drop j)
  | _ => false

/-- Length of the lazy capture: the number of characters before the first
position where the terminator matches, or the whole suffix when it never
does (the `$` alternative). -/
def captureLen (terms : List (List Char)) : List Char → Nat
  | [] => 0
  | s@(_ :: t) => if termAt terms s then 0 else captureLen terms t + 1

/-- The full region regex: first match position and captured group. -/
def regexRegionMatch (label : List Char) (terms : List (List Char))
    (text : List Char) : Option (Nat × List Char) :=
  match findLabelMatch label text 0 with
  | none => none
  | some (p, bodyStart) =>
    let body := text.drop bodyStart
    some (p, body.take (captureLen terms body))

/-- JS `String.prototype.trim` (ASCII whitespace). -/
def jsTrim (l : List Char) : List Char :=
  ((l.dropWhile jsWs).reverse.dropWhile jsWs).reverse

/-- `Math.min(...indentCounts)` over the leading-whitespace widths of the
non-blank lines, `0` when there is no non-blank line
(`indentCounts.length > 0 ? Math.min(...) : 0`). -/
def minIndent (rawLines : List (List Char)) : Nat :=
  let indentCounts :=
    (rawLines.filter fun l => jsTrim l ≠ []).map fun l => (l.takeWhile jsWs).length
  match indentCounts with
  | [] => 0
  | c :: rest => rest.foldl Nat.min c

/-- One line of `extractHTML`/`extractStyle` indentation stripping:
`line.startsWith(" ".repeat(minIndent)) ? line.slice(minIndent) : line`. -/
def stripLine (n : Nat) (l : List Char) : List Char :=
  if (spaces n).isPrefixOf l then l.drop n else l

theorem length_takeWhile_le (p : Char → Bool) (l : List Char) :
    (l.takeWhile p).length ≤ l.length := by
  induction l with
  | nil => simp
  | cons c t ih =>
    simp only [List.takeWhile]
    split
    · simpa using ih
    · simp

/-- The `extractHTML` sanitizer `content.replace(/<\/(\/\w+)>?/g, "</$1>")`:
every `<//word` (with optional `>`) is rewritten to `<//word>`. -/
def sanitizeLine : List Char → List Char
  | [] => []
  | '<' :: '/' :: '/' :: rest =>
    if rest.takeWhile jsWord = [] then '<' :: sanitizeLine ('/' :: '/' :: rest)
    else
      '<' :: '/' :: '/' :: (rest.takeWhile jsWord ++ '>' ::
        sanitizeLine
          (if (rest.drop (rest.takeWhile jsWord).length).head? = some '>' then
            (rest.drop (rest.takeWhile jsWord).length).tail
          else rest.drop (rest.takeWhile jsWord).length))
  | c :: rest => c :: sanitizeLine rest
termination_by l => l.length
decreasing_by
  · simp
  · rename_i hw
    have hw1 : 1 ≤ (rest.takeWhile jsWord).length := by
      cases hwl : rest.takeWhile jsWord with
      | nil => exact absurd hwl hw
      | cons a b => simp
    have hwr : (rest.takeWhile jsWord).length ≤ rest.length :=
      length_takeWhile_le jsWord rest
    have h2 : (if (rest.drop (rest.takeWhile jsWord).length).head? = some '>' then
          (rest.drop (rest.takeWhile jsWord).length).tail
        else rest.drop (rest.takeWhile jsWord).length).length ≤
        rest.length - (rest.takeWhile jsWord).length := by
      split
      · calc (rest.drop (rest.takeWhile jsWord).length).tail.length
            ≤ (rest.drop (rest.takeWhile jsWord).length).length := by
              rw [List.length_tail]; exact Nat.sub_le _ _
          _ = rest.length - (rest.takeWhile jsWord).length := by
              rw [List.length_drop]
      · rw [List.length_drop]
    simp only [List.length_cons, dite_eq_ite]
    omega
  · simp

/-- Fixed-width stripping used by `extractScript`:
`line.startsWith("  ") ? line.slice(2) : line` on every captured line. -/
def stripTwoLines (cap : List Char) : List (List Char) :=
  (splitNl cap).map fun l => if (spaces 2).isPrefixOf l then l.drop 2 else l

def scriptLabel : List Char := "script:".toList
def htmlLabel : List Char := "html:".toList
def styleLabel : List Char := "style:".toList

/-- The script capture stops only at a following `style:` label. -/
def scriptTerminators : List (List Char) := [styleLabel]
/-- The markup capture stops at a following `script:` or `style:` label. -/
def htmlTerminators : List (List Char) := [scriptLabel, styleLabel]
/-- The style capture stops at a following `script:` or `html:` label. -/
def styleTerminators : List (List Char) := [scriptLabel, htmlLabel]

structure ScriptRegion where
  script : List Char
  startLine : Nat
  endLine : Nat
  deriving DecidableEq

structure HtmlRegion where
  html : List Char
  startLine : Nat
  endLine : Nat
  indent : Nat
  deriving DecidableEq

structure StyleRegion where
  css : List Char
  startLine : Nat
  endLine : Nat
  indent : Nat
  deriving DecidableEq

/-- `extractScript` of `lunas-blocks.ts`.  Note: the capture is cut by the
regex terminator `\n\s*style:` only, and each captured line is stripped of
a fixed two-space prefix; `startLine` is computed from the first
`"script:"` occurrence (`text.indexOf`). -/
def extractScript (text : List Char) : ScriptRegion :=
  match regexRegionMatch scriptLabel scriptTerminators text with
  | none => ⟨[], 0, 0⟩
  | some (_, cap) =>
    let scriptStart := (jsIndexOf text scriptLabel).toNat
    let startLine := (splitNl (text.take scriptStart)).length
    let scriptLines := stripTwoLines cap
    ⟨joinNl scriptLines, startLine, startLine + scriptLines.length - 1⟩

/-- `extractHTML` of `lunas-blocks.ts`: minimum-indent stripping (space
prefix check) followed by the `<//` sanitizer on every line; `startLine`
from the actual match index. -/
def extractHTML (text : List Char) : HtmlRegion :=
  match regexRegionMatch htmlLabel htmlTerminators text with
  | none => ⟨[], 0, 0, 0⟩
  | some (p, full) =>
    let startLine := (splitNl (text.take p)).length
    let rawLines := splitNl full
    let mi := minIndent rawLines
    let lines := rawLines.map fun line => sanitizeLine (stripLine mi line)
    ⟨joinNl lines, startLine, startLine + lines.length - 1, mi⟩

/-- `extractStyle` of `lunas-blocks.ts`: minimum-indent stripping;
`startLine` from the first `"style:"` occurrence. -/
def extractStyle (text : List Char) : StyleRegion :=
  match regexRegionMatch styleLabel styleTerminators text with
  | none => ⟨[], 0, 0, 0⟩
  | some (_, full) =>
    let rawLines := splitNl full
    let mi := minIndent rawLines
    let startLine := (splitNl (text.take (jsIndexOf text styleLabel).toNat)).length
    let lines := rawLines.map fun line => stripLine mi line
    ⟨joinNl lines, startLine, startLine + lines.length - 1, mi⟩

/-! ## Template directive parser (`parseTemplateBlocks`, `src/server/main.ts`)

The markup block is parsed into `BlkNode` trees.  The HTML element tree
itself comes from the external `vscode-html-languageservice` parser; it is
modelled here as an input (`HNode`, carrying the attribute map and the
element's start/end offsets exactly as that library reports them). -/

/-- The `BlkNode` union of `main.ts` (`IfBlk | ForBlk | Expr`). -/
inductive Blk where
  | ifB (cond : List Char) (originalPos : Nat × Nat) (startOffset : Nat)
      (children : List Blk)
  | forB (cond : List Char) (isDeclOmitted : Bool) (originalPos : Nat × Nat)
      (startOffset : Nat) (children : List Blk)
  | expr (value : List Char) (originalPos : Nat × Nat) (startOffset : Nat)

/-- An element node as reported by the external HTML parser: attribute
entries in insertion order (`Object.entries`), raw attribute values
*including* the surrounding quotes (`null` for valueless attributes), and
the element's character range in the markup block. -/
structure HNode where
  attributes : List (List Char × Option (List Char))
  start : Nat
  nodeEnd : Nat
  children : List HNode

/-- JS object property lookup `node.attributes[name]`: first entry wins. -/
def attrLookup (attrs : List (List Char × Option (List Char)))
    (name : List Char) : Option (Option (List Char)) :=
  (attrs.find? fun kv => kv.1 = name).map (·.2)

/-- `html.indexOf(needle, from)` — JS `indexOf` with a start position. -/
def jsIndexOfFrom (hay needle : List Char) (start : Nat) : Int :=
  match listIndexOf (hay.drop start) needle with
  | some n => (n + start : Nat)
  | none => -1

/-- The match data collected for one interpolation or bound attribute. -/
structure ExprMatch where
  value : List Char
  startOffset : Nat
  endOffset : Nat
  originalPos : Nat × Nat
  deriving DecidableEq

/-- Scan of the global regex `/<!--[\s\S]*?-->/g`: the comment ranges
`(start, end)` (end exclusive), non-overlapping, left to right. -/
def commentScan : List Char → Nat → List (Nat × Nat)
  | [], _ => []
  | '<' :: '!' :: '-' :: '-' :: rest, p =>
    match listIndexOf rest "-->".toList with
    | some i => (p, p + 4 + i + 3) :: commentScan (rest.drop (i + 3)) (p + 4 + i + 3)
    | none => commentScan ('!' :: '-' :: '-' :: rest) (p + 1)
  | _ :: t, p => commentScan t (p + 1)
termination_by l _ => l.length
decreasing_by
  · have := List.length_drop (i + 3) rest
    simp only [List.length_cons]
    omega
  · simp
  · simp

/-- Scan of the global regex `/\$\{([^}]+)\}/g`: `(match index, group)`
pairs, non-overlapping, left to right; the group is the maximal non-`}`
run (at least one character) and must be followed by `}`. -/
def interpScan : List Char → Nat → List (Nat × List Char)
  | [], _ => []
  | '$' :: '{' :: rest, p =>
    if !(rest.takeWhile (fun c => c ≠ '}')).isEmpty &&
        (rest.drop (rest.takeWhile (fun c => c ≠ '}')).length).head? = some '}' then
      (p, rest.takeWhile (fun c => c ≠ '}')) ::
        interpScan (rest.drop ((rest.takeWhile (fun c => c ≠ '}')).length + 1))
          (p + (rest.takeWhile (fun c => c ≠ '}')).length + 3)
    else interpScan ('{' :: rest) (p + 1)
  | _ :: t, p => interpScan t (p + 1)
termination_by l _ => l.length
decreasing_by
  · have := List.length_drop ((rest.takeWhile (fun c => c ≠ '}')).length + 1) rest
    simp only [List.length_cons]
    omega
  · simp
  · simp

/-- The `/^(?:let|const|var)\s+/` test of the loop induction clause. -/
def startsWithDeclKw (s : List Char) : Bool :=
  ["let".toList, "const".toList, "var".toList].any fun kw =>
    kw.isPrefixOf s &&
      (match s.drop kw.length with
       | c :: _ => jsWs c
       | [] => false)

/-- Step 1 of `parseTemplateBlocks`: interpolation expressions, skipping
matches that start inside an HTML comment, with offsets adjusted to the
trimmed expression text. -/
def interpExprMatches (html : List Char) : List ExprMatch :=
  let commentRanges := commentScan html 0
  let lines := splitNl html
  (interpScan html 0).filterMap fun m =>
    if commentRanges.any (fun r => r.1 ≤ m.1 && m.1 < r.2) then none
    else
      let raw := m.2
      let rawTrimmed := jsTrim raw
      let leadingSpaces := (jsIndexOf raw rawTrimmed).toNat
      let trimmedStartOffset := m.1 + 2 + leadingSpaces
      some ⟨rawTrimmed, trimmedStartOffset, trimmedStartOffset + rawTrimmed.length,
        posAtLines lines trimmedStartOffset⟩

/-- Step 1.a of `parseTemplateBlocks`: attribute-binding expressions for
attributes starting with `:` or `@`, excluding the `:for` / `:if`
directives, collected node-first then children (the `collectAttrExprs`
traversal). -/
def collectAttrExprs (html : List Char) (lines : List (List Char)) :
    HNode → List ExprMatch
  | ⟨attrs, start, _, children⟩ =>
    (attrs.filterMap fun kv =>
      match kv.2 with
      | none => none
      | some raw =>
        if (kv.1.head? = some ':' || kv.1.head? = some '@') &&
            kv.1 ≠ ":for".toList && kv.1 ≠ ":if".toList then
          let rawExpr := (raw.drop 1).dropLast
          let rawTrimmed := jsTrim rawExpr
          let leadingSpaces := (jsIndexOf rawExpr rawTrimmed).toNat
          let valueStartOffset :=
            (jsIndexOfFrom html raw start + 1 + (leadingSpaces : Int)).toNat
          some ⟨rawTrimmed, valueStartOffset, valueStartOffset + rawTrimmed.length,
            posAtLines lines valueStartOffset⟩
        else none) ++
    ((children.attach.map fun c => collectAttrExprs html lines c.1).flatten)
termination_by n => sizeOf n
decreasing_by
  have := List.sizeOf_lt_of_mem c.2
  simp only [HNode.mk.sizeOf_spec]
  omega

/-- One block-range record of step 2 (`BlockRange`). -/
structure BlockRange where
  block : Blk
  startOffset : Nat
  endOffset : Nat

/-- Step 2 of `parseTemplateBlocks` (`findBlocks`): collect `:for` and
`:if` blocks with their element ranges, `:for` checked first, then the
children.  A `null` or empty raw attribute value is falsy and skipped. -/
def findBlocks (html : List Char) (lines : List (List Char)) :
    HNode → List BlockRange
  | ⟨attrs, start, nodeEnd, children⟩ =>
    (match attrLookup attrs ":for".toList with
     | some (some raw) =>
       if raw ≠ [] then
         let inner := jsTrim ((raw.drop 1).dropLast)
         let isDeclOmitted := !(startsWithDeclKw inner)
         let cond := if isDeclOmitted then "let ".toList ++ inner else inner
         let valueStartOffset := (jsIndexOfFrom html raw start + 1).toNat
         [⟨Blk.forB cond isDeclOmitted (posAtLines lines valueStartOffset)
             start [], start, nodeEnd⟩]
       else []
     | _ => []) ++
    (match attrLookup attrs ":if".toList with
     | some (some raw) =>
       if raw ≠ [] then
         let valueStartOffset := (jsIndexOfFrom html raw start + 1).toNat
         let cond := jsTrim ((raw.drop 1).dropLast)
         [⟨Blk.ifB cond (posAtLines lines valueStartOffset) start [],
             start, nodeEnd⟩]
       else []
     | _ => []) ++
    ((children.attach.map fun c => findBlocks html lines c.1).flatten)
termination_by n => sizeOf n
decreasing_by
  have := List.sizeOf_lt_of_mem c.2
  simp only [HNode.mk.sizeOf_spec]
  omega

def isIfBlk : Blk → Bool
  | .ifB .. => true
  | _ => false

def isForBlk : Blk → Bool
  | .forB .. => true
  | _ => false

/-- `children.push(child)` on a loop or conditional block. -/
def pushChild : Blk → Blk → Blk
  | .forB c d p s ch, child => .forB c d p s (ch ++ [child])
  | .ifB c p s ch, child => .ifB c p s (ch ++ [child])
  | b, _ => b

/-- `findIndex` of a `ForBlk` at a different position with the identical
element range (the `other !== br` reference test becomes an index test:
every array slot holds a distinct object). -/
def findMatchingForIdx (brs : List BlockRange) (i : Nat)
    (br : BlockRange) : Option Nat :=
  (List.range brs.length).find? fun j =>
    j ≠ i &&
      (match brs.get? j with
       | some other =>
         isForBlk other.block && other.startOffset == br.startOffset &&
           other.endOffset == br.endOffset
       | none => false)

/-- One iteration of the descending `:if`-into-`:for` loop at index `i`. -/
def nestStep (brs : List BlockRange) (i : Nat) : List BlockRange :=
  match brs.get? i with
  | none => brs
  | some br =>
    if isIfBlk br.block then
      match findMatchingForIdx brs i br with
      | some j =>
        match brs.get? j with
        | some other =>
          (brs.set j { other with block := pushChild other.block br.block }).eraseIdx i
        | none => brs
      | none => brs
    else brs

/-- `for (let i = blockRanges.length - 1; i >= 0; i--)`. -/
def nestLoop : List BlockRange → Nat → List BlockRange
  | brs, 0 => nestStep brs 0
  | brs, i + 1 => nestLoop (nestStep brs (i + 1)) i

/-- The `:if`-into-`:for` pass of `parseTemplateBlocks` (a node carrying
both directives nests the conditional inside the loop). -/
def nestIfIntoFor (brs : List BlockRange) : List BlockRange :=
  match brs.length with
  | 0 => brs
  | n + 1 => nestLoop brs n

def brSize (br : BlockRange) : Nat := br.endOffset - br.startOffset

def strictlyContains (p b : BlockRange) : Bool :=
  p.startOffset < b.startOffset && b.endOffset < p.endOffset

/-- The `parents.reduce((a, b) => sizeA <= sizeB ? a : b)` innermost
choice: the first candidate of minimal size. -/
def innermostIdx (brs : List BlockRange) : List Nat → Option Nat
  | [] => none
  | c :: rest =>
    some (rest.foldl
      (fun a b =>
        match brs.get? a, brs.get? b with
        | some ba, some bb => if brSize ba ≤ brSize bb then a else b
        | _, _ => a)
      c)

/-- Index of the innermost block range strictly containing range `i`. -/
def parentIdxOf (brs : List BlockRange) (i : Nat) : Option Nat :=
  match brs.get? i with
  | none => none
  | some br =>
    innermostIdx brs ((List.range brs.length).filter fun j =>
      j ≠ i &&
        (match brs.get? j with
         | some p => strictlyContains p br
         | none => false))

/-- Index of the innermost block range containing an expression match
(non-strict containment of the expression's offsets). -/
def exprContainerIdx (brs : List BlockRange) (em : ExprMatch) : Option Nat :=
  innermostIdx brs ((List.range brs.length).filter fun j =>
    match brs.get? j with
    | some b => b.startOffset ≤ em.startOffset && em.endOffset ≤ b.endOffset
    | none => false)

def appendChildren : Blk → List Blk → Blk
  | .forB c d p s ch, more => .forB c d p s (ch ++ more)
  | .ifB c p s ch, more => .ifB c p s (ch ++ more)
  | b, _ => b

/-- Materialization of the containment tree built by the parent-link and
expression-assignment passes of `parseTemplateBlocks`.  In the source both
passes push object references; every pushed block receives its own
children by later pushes through the shared reference.  The final tree is
fully determined by the element offsets, so it is rebuilt here bottom-up:
a block's children are its `:if`-pass children (already inside the block),
then the blocks whose innermost strict container it is (ascending index),
then the expressions whose innermost container it is (match order).
The fuel is the list length, an upper bound on the containment depth. -/
def buildBlk (brs : List BlockRange) (exprs : List ExprMatch) :
    Nat → Nat → Blk
  | 0, i =>
    match brs.get? i with
    | some br => br.block
    | none => Blk.expr [] (0, 0) 0
  | fuel + 1, i =>
    match brs.get? i with
    | none => Blk.expr [] (0, 0) 0
    | some br =>
      let blockChildren :=
        ((List.range brs.length).filter fun j =>
          parentIdxOf brs j == some i).map (buildBlk brs exprs fuel)
      let exprChildren :=
        (exprs.filter fun em => exprContainerIdx brs em == some i).map fun em =>
          Blk.expr em.value em.originalPos em.startOffset
      appendChildren br.block (blockChildren ++ exprChildren)

/-- Indices of block ranges not strictly contained in any other. -/
def rootIdxs (brs : List BlockRange) : List Nat :=
  (List.range brs.length).filter fun i =>
    match brs.get? i with
    | some br =>
      !((List.range brs.length).any fun j =>
        j ≠ i &&
          (match brs.get? j with
           | some p => strictlyContains p br
           | none => false))
    | none => false

def blkStart : Blk → Nat
  | .ifB _ _ s _ => s
  | .forB _ _ _ s _ => s
  | .expr _ _ s => s

mutual
/-- `sortChildren`: sort every sibling list by ascending start offset
(JS `Array.prototype.sort` is stable, as is `mergeSort`). -/
def sortBlks (ns : List Blk) : List Blk :=
  (ns.attach.map fun n => sortNode n.1).mergeSort fun a b => blkStart a ≤ blkStart b
termination_by sizeOf ns
decreasing_by
  have := List.sizeOf_lt_of_mem n.2
  omega

def sortNode : Blk → Blk
  | .ifB c p s ch => .ifB c p s (sortBlks ch)
  | .forB c d p s ch => .forB c d p s (sortBlks ch)
  | .expr v p s => .expr v p s
termination_by b => sizeOf b
decreasing_by
  · simp
  · simp
end

/-- `parseTemplateBlocks(htmlDoc, htmlService)`: the full pipeline, with
the parsed element tree (`parsed.roots`) supplied by the external HTML
parser. -/
def parseTemplateBlocks (html : List Char) (roots : List HNode) : List Blk :=
  let lines := splitNl html
  let exprMatches :=
    interpExprMatches html ++ (roots.map (collectAttrExprs html lines)).flatten
  let brs := nestIfIntoFor ((roots.map (findBlocks html lines)).flatten)
  let rootBlocks := sortBlks ((rootIdxs brs).map (buildBlk brs exprMatches brs.length))
  let topLevelExprs :=
    (exprMatches.filter fun em => exprContainerIdx brs em == none).map fun em =>
      Blk.expr em.value em.originalPos em.startOffset
  (topLevelExprs ++ rootBlocks).mergeSort fun a b => blkStart a ≤ blkStart b

/-! ## Virtual script synthesizer (`generateVirtualTsFromBlks`) -/

/-- One position-map entry: mapped expression text, its original
`(line, character)` in the markup block, and its `[start, end)` offset
range in the synthesized document. -/
structure Mapping where
  value : List Char
  originalPos : Nat × Nat
  tsPos : Nat × Nat
  deriving DecidableEq

mutual
/-- The `emit` recursion of `generateVirtualTsFromBlks`: produces the
emitted lines, the position-map entries (in emission order) and the final
cursor.  The cursor advances by each line's length plus one for the
joining newline. -/
def emitNode : Blk → Nat → List (List Char) × List Mapping × Nat
  | .ifB cond pos _ children, cursor =>
    let header := "if (".toList ++ cond ++ ") \x7b".toList
    let tsCondStart := cursor + (jsIndexOf header cond).toNat
    let r := emitList children (cursor + header.length + 1)
    (header :: r.1 ++ [['}']],
      ⟨cond, pos, (tsCondStart, tsCondStart + cond.length)⟩ :: r.2.1,
      r.2.2 + 2)
  | .forB cond _ pos _ children, cursor =>
    let header := "for (".toList ++ cond ++ ") \x7b".toList
    let tsCondStart := cursor + (jsIndexOf header cond).toNat
    let r := emitList children (cursor + header.length + 1)
    (header :: r.1 ++ [['}']],
      ⟨cond, pos, (tsCondStart, tsCondStart + cond.length)⟩ :: r.2.1,
      r.2.2 + 2)
  | .expr value pos _, cursor =>
    let line := "  (".toList ++ value ++ [')', ';']
    let tsStart := cursor + (jsIndexOf line value).toNat
    ([line], [⟨value, pos, (tsStart, tsStart + value.length)⟩],
      cursor + line.length + 1)

/-- `emit` over a sibling list. -/
def emitList : List Blk → Nat → List (List Char) × List Mapping × Nat
  | [], cursor => ([], [], cursor)
  | n :: rest, cursor =>
    let r1 := emitNode n cursor
    let r2 := emitList rest r1.2.2
    (r1.1 ++ r2.1, r1.2.1 ++ r2.2.1, r2.2.2)
end

/-- `generateVirtualTsFromBlks(blks, originalScriptContent)`:
the original script, a newline, the emitted statement lines joined by
newlines, and a trailing newline, together with the position map.  The
cursor starts at `originalScriptContent.length + 1`. -/
def generateVirtualTsFromBlks (blks : List Blk) (script : List Char) :
    List Char × List Mapping :=
  let r := emitList blks (script.length + 1)
  (script ++ '\n' :: joinNl r.1 ++ ['\n'], r.2.1)

/-! ## Result mapper and diagnostic publication
(`documents.onDidChangeContent`, `src/server/main.ts` lines 2004–2207) -/

/-- `ts.DiagnosticCategory`. -/
inductive DiagCategory where
  | error
  | warning
  | suggestion
  | message
  deriving DecidableEq

/-- A TypeScript service diagnostic anchored in the virtual document
(`start`/`length` are optional in the `ts.Diagnostic` type). -/
structure TsDiag where
  start : Option Nat
  length : Option Nat
  messageText : List Char
  category : DiagCategory
  code : Nat
  deriving DecidableEq

/-- An LSP diagnostic as published: severity (LSP numbering: 1 error,
2 warning, 3 information, 4 hint), a range of `(line, character)` pairs,
message, source tag and code. -/
structure Diagnostic where
  severity : Nat
  range : (Nat × Nat) × (Nat × Nat)
  message : List Char
  source : List Char
  code : Nat
  deriving DecidableEq

/-- The template-diagnostic mapping step (`allDiags.forEach` body,
lines 2155–2191): skip diagnostics without start/length; look up the
first position-map entry whose virtual range contains the start offset
and drop the diagnostic when none does; re-express the entry's whole
expression range in full-document coordinates by projecting the entry's
original position through the markup block's start line and indent. -/
def mapTemplateDiag (mappings : List Mapping) (htmlLines : List (List Char))
    (hStart htmlIndent : Nat) (d : TsDiag) : Option Diagnostic :=
  match d.start, d.length with
  | some ds, some _ =>
    match mappings.find? (fun m => decide (m.tsPos.1 ≤ ds) && decide (ds < m.tsPos.2)) with
    | none => none
    | some m =>
      let baseOffset := offAtLines htmlLines m.originalPos
      let startPos := posAtLines htmlLines baseOffset
      let endPos := posAtLines htmlLines (baseOffset + m.value.length)
      some
        { severity :=
            match d.category with
            | .error => 1
            | .warning => 2
            | _ => 3
          range := ((hStart + startPos.1, htmlIndent + startPos.2),
            (hStart + endPos.1, htmlIndent + endPos.2))
          message := d.messageText
          source := "Lunas Template TS".toList
          code := d.code }
  | _, _ => none

/-- The template pass maps every virtual diagnostic through
`mapTemplateDiag` and keeps the successfully mapped ones. -/
def mapTemplateDiags (mappings : List Mapping) (htmlLines : List (List Char))
    (hStart htmlIndent : Nat) (ds : List TsDiag) : List Diagnostic :=
  ds.filterMap (mapTemplateDiag mappings htmlLines hStart htmlIndent)

/-- Decimal rendering of the numbers interpolated into the dedup key. -/
def natToChars (n : Nat) : List Char := (Nat.repr n).toList

/-- The dedup key
`` `${start.line},${start.character},${end.line},${end.character},${message}` ``. -/
def diagKey (d : Diagnostic) : List Char :=
  natToChars d.range.1.1 ++ ',' :: natToChars d.range.1.2 ++
    ',' :: natToChars d.range.2.1 ++ ',' :: natToChars d.range.2.2 ++
    ',' :: d.message

/-- The `uniqueMap` deduplication (lines 2196–2205): first diagnostic per
key wins, insertion order preserved (`Map` + `Array.from(values)`). -/
def dedupDiagnosticsGo (seen : List (List Char)) :
    List Diagnostic → List Diagnostic
  | [] => []
  | d :: rest =>
    if diagKey d ∈ seen then dedupDiagnosticsGo seen rest
    else d :: dedupDiagnosticsGo (diagKey d :: seen) rest

def dedupDiagnostics (ds : List Diagnostic) : List Diagnostic :=
  dedupDiagnosticsGo [] ds

/-- The diagnostics list sent for the document: the script-block pass
results, then the mapped template pass results, deduplicated. -/
def publishedDiagnostics (scriptPass templatePass : List Diagnostic) :
    List Diagnostic :=
  dedupDiagnostics (scriptPass ++ templatePass)

/-! ## Virtual file store and the transient install/restore flows

`scriptContents` / `scriptVersions` for one virtual path, and the store
mutations performed by the change handler and the point-query handlers
(hover `provideLunasTemplateHover` lines 2769–2784, definition
`connection.onDefinition` lines 3104–3117, completion
`connection.onCompletion` lines 2443–2491). -/

/-- The two per-path map entries (`scriptContents.get(p)`,
`scriptVersions.get(p)`). -/
structure VirtualStore where
  content : Option (List Char)
  version : Option Nat
  deriving DecidableEq

/-- Outcome of one synchronous call into the TypeScript language
service: a value, or a thrown exception. -/
inductive EngineCall (α : Type) where
  | ok (a : α)
  | thrown
  deriving DecidableEq

/-- The hover / definition transient swap (identical store discipline in
both handlers): read the durable content, install the probe script with
version `+1`, call the engine **with no try/catch** — a thrown exception
propagates out of the handler before the restore lines run — and
otherwise restore the durable content with version `+2`.  Returns the
result with the final store, or `.error` carrying the store as left by
the aborted handler, plus the list of version-counter writes. -/
def hoverSwapFlow {α : Type} (st : VirtualStore) (tempScript : List Char)
    (engine : EngineCall α) :
    Except VirtualStore (Option α × VirtualStore) × List VirtualStore :=
  match st.content with
  | none => (.ok (none, st), [])
  | some originalScriptContent =>
    let originalVersion := st.version.getD 0
    let installed : VirtualStore := ⟨some tempScript, some (originalVersion + 1)⟩
    match engine with
    | .thrown => (.error installed, [installed])
    | .ok a =>
      let restored : VirtualStore :=
        ⟨some originalScriptContent, some (originalVersion + 2)⟩
      (.ok (some a, restored), [installed, restored])

/-- The completion transient swap: after installing the probe, the
handler first calls the diagnostics services (lines 2449–2452, *not*
guarded), then `getCompletionsAtPosition` inside `try/catch` (a thrown
exception there is caught and treated as no completions), then restores.
Only an exception in the unguarded calls escapes with the probe still
installed. -/
def completionSwapFlow {α β : Type} (st : VirtualStore) (tempScript : List Char)
    (diagCalls : EngineCall β) (completionsCall : EngineCall α) :
    Except VirtualStore (Option α × VirtualStore) × List VirtualStore :=
  match st.content with
  | none => (.ok (none, st), [])
  | some originalScriptContent =>
    let originalVersion := st.version.getD 0
    let installed : VirtualStore := ⟨some tempScript, some (originalVersion + 1)⟩
    match diagCalls with
    | .thrown => (.error installed, [installed])
    | .ok _ =>
      let tsCompletions : Option α :=
        match completionsCall with
        | .ok a => some a
        | .thrown => none
      let restored : VirtualStore :=
        ⟨some originalScriptContent, some (originalVersion + 2)⟩
      (.ok (tsCompletions, restored), [installed, restored])

/-- The store mutations of `documents.onDidChangeContent`: the
conditional script update (lines 2021–2027, only when the content
changed, bumping the version by one), then — when a markup block exists
and content is present — the template-pass transient pair (lines
2134–2153): install the synthesized script at `originalVer + 1` and
restore the original at `originalVer + 2`.  Returns the final store and
the trace of store states after each content/version write pair.
(`scriptVersions.get(virtualPath)!` is modelled as `getD 0`; a version
entry is present whenever a content entry is.) -/
def onChangeStoreFlow (st : VirtualStore) (updatedScript tempScript : List Char)
    (htmlNonEmpty : Bool) : VirtualStore × List VirtualStore :=
  let step1 :=
    if st.content ≠ some updatedScript then
      let written : VirtualStore :=
        ⟨some updatedScript, some (st.version.getD 0 + 1)⟩
      (written, [written])
    else (st, ([] : List VirtualStore))
  match step1 with
  | (st1, w1) =>
    if htmlNonEmpty && st1.content.isSome then
      match st1.content with
      | some originalScript =>
        let originalVer := st1.version.getD 0
        let installed : VirtualStore := ⟨some tempScript, some (originalVer + 1)⟩
        let restored : VirtualStore := ⟨some originalScript, some (originalVer + 2)⟩
        (restored, w1 ++ [installed, restored])
      | none => (st1, w1)
    else (st1, w1)

/-! ## Helper lemmas -/

/-- A node tree none of whose attributes carries the binding sigil
(`:` or `@`): a markup region of plain text and plain attributes. -/
def noDirectiveAttrsB : HNode → Bool
  | ⟨attrs, _, _, children⟩ =>
    (attrs.all fun kv => !(kv.1.head? = some ':' || kv.1.head? = some '@')) &&
    (children.attach.all fun c => noDirectiveAttrsB c.1)
termination_by n => sizeOf n
decreasing_by
  have := List.sizeOf_lt_of_mem c.2
  simp only [HNode.mk.sizeOf_spec]
  omega

theorem attrLookup_eq_none (attrs : List (List Char × Option (List Char)))
    (name : List Char) (h : ∀ kv ∈ attrs, kv.1 ≠ name) :
    attrLookup attrs name = none := by
  unfold attrLookup
  rw [List.find?_eq_none.mpr]
  · rfl
  · intro kv hkv
    simpa using h kv hkv

theorem collectAttrExprs_nil (html : List Char) (lines : List (List Char))
    (n : HNode) (h : noDirectiveAttrsB n = true) :
    collectAttrExprs html lines n = [] := by
  induction n using noDirectiveAttrsB.induct with
  | _ attrs s e children ih =>
    rw [noDirectiveAttrsB] at h
    rw [Bool.and_eq_true] at h
    obtain ⟨hattrs, hch⟩ := h
    rw [collectAttrExprs]
    rw [List.append_eq_nil]
    constructor
    · rw [List.filterMap_eq_nil_iff]
      intro kv hkv
      rw [List.all_eq_true] at hattrs
      have := hattrs kv hkv
      cases kv.2 with
      | none => rfl
      | some raw =>
        simp only [Bool.not_eq_true', Bool.or_eq_false_iff,
          decide_eq_false_iff_not] at this
        simp [this.1, this.2]
    · rw [List.flatten_eq_nil_iff]
      intro l hl
      rw [List.mem_map] at hl
      obtain ⟨c, hc, rfl⟩ := hl
      rw [List.all_eq_true] at hch
      exact ih c (hch c hc)

theorem findBlocks_nil (html : List Char) (lines : List (List Char))
    (n : HNode) (h : noDirectiveAttrsB n = true) :
    findBlocks html lines n = [] := by
  induction n using noDirectiveAttrsB.induct with
  | _ attrs s e children ih =>
    rw [noDirectiveAttrsB] at h
    rw [Bool.and_eq_true] at h
    obtain ⟨hattrs, hch⟩ := h
    have hnamed : ∀ name : List Char, name.head? = some ':' →
        attrLookup attrs name = none := by
      intro name hname
      apply attrLookup_eq_none
      intro kv hkv heq
      rw [List.all_eq_true] at hattrs
      have := hattrs kv hkv
      rw [heq, hname] at this
      simp at this
    rw [findBlocks]
    rw [hnamed (":for".toList) rfl, hnamed (":if".toList) rfl]
    simp only [List.nil_append]
    rw [List.flatten_eq_nil_iff]
    intro l hl
    rw [List.mem_map] at hl
    obtain ⟨c, hc, rfl⟩ := hl
    rw [List.all_eq_true] at hch
    exact ih c (hch c hc)

theorem nestIfIntoFor_nil : nestIfIntoFor [] = [] := rfl

theorem rootIdxs_nil : rootIdxs [] = [] := rfl

theorem sortBlks_nil : sortBlks [] = [] := by
  unfold sortBlks
  simp

/-! ## Claim theorems -/

/-- **C4.** For any document whose markup region contains no directives
(no interpolations, no bound attributes, no loop or conditional
directives), the parser produces no block nodes, and the synthesizer's
output virtual document is the original script followed by the separator
newline and the trailing newline only — zero synthesized directive
statements — with an empty position map. -/
theorem synthesize_plain_markup_roundtrip (html script : List Char)
    (roots : List HNode) (h1 : interpScan html 0 = [])
    (h2 : ∀ n ∈ roots, noDirectiveAttrsB n = true) :
    parseTemplateBlocks html roots = [] ∧
    generateVirtualTsFromBlks (parseTemplateBlocks html roots) script =
      (script ++ ['\n', '\n'], []) := by
  have e1 : interpExprMatches html = [] := by
    unfold interpExprMatches
    rw [h1]
    rfl
  have e2 : (roots.map (collectAttrExprs html (splitNl html))).flatten = [] := by
    rw [List.flatten_eq_nil_iff]
    intro l hl
    rw [List.mem_map] at hl
    obtain ⟨n, hn, rfl⟩ := hl
    exact collectAttrExprs_nil _ _ _ (h2 n hn)
  have e3 : (roots.map (findBlocks html (splitNl html))).flatten = [] := by
    rw [List.flatten_eq_nil_iff]
    intro l hl
    rw [List.mem_map] at hl
    obtain ⟨n, hn, rfl⟩ := hl
    exact findBlocks_nil _ _ _ (h2 n hn)
  have hparse : parseTemplateBlocks html roots = [] := by
    unfold parseTemplateBlocks
    simp only [e1, e2, e3, List.nil_append, nestIfIntoFor_nil, rootIdxs_nil,
      List.map_nil, sortBlks_nil, List.filter_nil, List.append_nil]
    simp
  refine ⟨hparse, ?_⟩
  rw [hparse]
  unfold generateVirtualTsFromBlks emitList
  simp [joinNl]

/-- **C6.** The loop parser accepts the induction clause with and without
a leading declaration keyword: a clause already starting with
`let`/`const`/`var` plus whitespace is kept as-is, a bare clause is
normalized to `let ⟨clause⟩`; the virtual document re-emits the loop
header as `for (⟨normalized clause⟩) {`. -/
theorem for_clause_normalization (html : List Char) (lines : List (List Char))
    (attrs : List (List Char × Option (List Char))) (s e : Nat)
    (raw : List Char) (hfor : attrLookup attrs (":for".toList) = some (some raw))
    (hraw : raw ≠ []) (hif : attrLookup attrs (":if".toList) = none) :
    (startsWithDeclKw (jsTrim ((raw.drop 1).dropLast)) = false →
      findBlocks html lines ⟨attrs, s, e, []⟩ =
        [⟨Blk.forB ("let ".toList ++ jsTrim ((raw.drop 1).dropLast)) true
            (posAtLines lines (jsIndexOfFrom html raw s + 1).toNat) s [],
          s, e⟩]) ∧
    (startsWithDeclKw (jsTrim ((raw.drop 1).dropLast)) = true →
      findBlocks html lines ⟨attrs, s, e, []⟩ =
        [⟨Blk.forB (jsTrim ((raw.drop 1).dropLast)) false
            (posAtLines lines (jsIndexOfFrom html raw s + 1).toNat) s [],
          s, e⟩]) ∧
    (∀ (cond : List Char) (d : Bool) (pos : Nat × Nat) (s0 cursor : Nat),
      (emitNode (Blk.forB cond d pos s0 []) cursor).1 =
        ["for (".toList ++ cond ++ ") \x7b".toList, ['}']]) := by
  refine ⟨?_, ?_, ?_⟩
  · intro hbare
    rw [findBlocks, hfor, hif]
    rw [List.drop_one] at hbare
    simp [hraw, hbare]
  · intro hdecl
    rw [findBlocks, hfor, hif]
    rw [List.drop_one] at hdecl
    simp [hraw, hdecl]
  · intro cond d pos s0 cursor
    rw [emitNode, emitList]
    simp

/-- Witness for `for_clause_normalization`: a single element carrying
`:for="item of items"`; the bare clause is normalized to
`let item of items`. -/
theorem for_clause_normalization_witness :
    startsWithDeclKw (jsTrim (("\"item of items\"".toList.drop 1).dropLast)) = false ∧
    findBlocks "x".toList [['x']]
        ⟨[(":for".toList, some "\"item of items\"".toList)], 0, 10, []⟩ =
      [⟨Blk.forB ("let ".toList ++ jsTrim (("\"item of items\"".toList.drop 1).dropLast)) true
          (posAtLines [['x']] (jsIndexOfFrom "x".toList "\"item of items\"".toList 0 + 1).toNat) 0 [],
        0, 10⟩] := by
  refine ⟨by decide, ?_⟩
  exact (for_clause_normalization "x".toList [['x']]
    [(":for".toList, some "\"item of items\"".toList)] 0 10
    "\"item of items\"".toList (by decide) (by decide) (by decide)).1 (by decide)

theorem mem_dedupGo_key_not_seen (d : Diagnostic) :
    ∀ (seen : List (List Char)) (l : List Diagnostic),
      d ∈ dedupDiagnosticsGo seen l → diagKey d ∉ seen := by
  intro seen l
  induction l generalizing seen with
  | nil => intro h; simp [dedupDiagnosticsGo] at h
  | cons e rest ih =>
    intro h
    rw [dedupDiagnosticsGo] at h
    by_cases hk : diagKey e ∈ seen
    · rw [if_pos hk] at h
      exact ih seen h
    · rw [if_neg hk] at h
      rcases List.mem_cons.mp h with rfl | hmem
      · exact hk
      · have := ih (diagKey e :: seen) hmem
        intro hc
        exact this (List.mem_cons_of_mem _ hc)

theorem dedupGo_pairwise_keys (l : List Diagnostic) :
    ∀ seen : List (List Char),
      (dedupDiagnosticsGo seen l).Pairwise fun a b => diagKey a ≠ diagKey b := by
  induction l with
  | nil => intro seen; simp [dedupDiagnosticsGo]
  | cons e rest ih =>
    intro seen
    rw [dedupDiagnosticsGo]
    by_cases hk : diagKey e ∈ seen
    · rw [if_pos hk]
      exact ih seen
    · rw [if_neg hk]
      refine List.Pairwise.cons ?_ (ih (diagKey e :: seen))
      intro d hd heq
      have := mem_dedupGo_key_not_seen d (diagKey e :: seen) rest hd
      exact this (heq ▸ List.mem_cons_self _ _)

/-- **C10.** The published diagnostics list (script-block pass results
followed by template-pass results, deduplicated) never contains two
entries with identical start position, end position and message: such
duplicates collapse onto the same dedup key and only the first is kept. -/
theorem published_diagnostics_no_duplicates
    (scriptPass templatePass : List Diagnostic) :
    (publishedDiagnostics scriptPass templatePass).Pairwise fun a b =>
      ¬(a.range = b.range ∧ a.message = b.message) := by
  have h := dedupGo_pairwise_keys (scriptPass ++ templatePass) []
  unfold publishedDiagnostics dedupDiagnostics
  refine h.imp ?_
  intro a b hne ⟨hr, hm⟩
  exact hne (by unfold diagKey; rw [hr, hm])

/-- Witness for `synthesize_plain_markup_roundtrip`: plain markup
`<p>hi</p>` with one plain attribute and script `let x;`. -/
theorem synthesize_plain_markup_roundtrip_witness :
    parseTemplateBlocks "<p>hi</p>".toList
        [⟨[("class".toList, some "\"a\"".toList)], 0, 9, []⟩] = [] ∧
    generateVirtualTsFromBlks
        (parseTemplateBlocks "<p>hi</p>".toList
          [⟨[("class".toList, some "\"a\"".toList)], 0, 9, []⟩])
        "let x;".toList =
      ("let x;".toList ++ ['\n', '\n'], []) := by
  exact synthesize_plain_markup_roundtrip "<p>hi</p>".toList "let x;".toList
    [⟨[("class".toList, some "\"a\"".toList)], 0, 9, []⟩]
    (by simp [interpScan])
    (by intro n hn; simp at hn; subst hn; simp [noDirectiveAttrsB])

/-- **C3.** A diagnostic from the synthesized template document whose
start offset is contained in no position-map entry's virtual range is
mapped to nothing, and therefore contributes nothing to the mapped
diagnostics produced by the template pass — it is dropped, never surfaced
at a mis-located position. -/
theorem unmapped_template_diag_dropped (mappings : List Mapping)
    (htmlLines : List (List Char)) (hStart htmlIndent : Nat) (d : TsDiag)
    (ds : Nat) (hds : d.start = some ds)
    (h : ∀ m ∈ mappings, ¬(m.tsPos.1 ≤ ds ∧ ds < m.tsPos.2)) :
    mapTemplateDiag mappings htmlLines hStart htmlIndent d = none ∧
    ∀ pre post : List TsDiag,
      mapTemplateDiags mappings htmlLines hStart htmlIndent (pre ++ d :: post) =
        mapTemplateDiags mappings htmlLines hStart htmlIndent (pre ++ post) := by
  have hfind : mappings.find?
      (fun m => decide (m.tsPos.1 ≤ ds) && decide (ds < m.tsPos.2)) = none := by
    rw [List.find?_eq_none]
    intro m hm
    have hm' := h m hm
    rw [Bool.and_eq_true, decide_eq_true_eq, decide_eq_true_eq]
    exact fun hc => hm' hc
  have hnone : mapTemplateDiag mappings htmlLines hStart htmlIndent d = none := by
    unfold mapTemplateDiag
    rw [hds]
    cases hl : d.length with
    | none => rfl
    | some dl => simp only [hfind]
  refine ⟨hnone, ?_⟩
  intro pre post
  unfold mapTemplateDiags
  rw [List.filterMap_append, List.filterMap_append, List.filterMap_cons, hnone]

/-- Witness for `unmapped_template_diag_dropped`: one entry covering
`[18, 19)` and a diagnostic at virtual offset 25. -/
theorem unmapped_template_diag_dropped_witness :
    mapTemplateDiag [⟨['x'], (0, 0), (18, 19)⟩] [['a']] 3 2
        ⟨some 25, some 1, "boom".toList, DiagCategory.error, 2304⟩ = none ∧
    mapTemplateDiags [⟨['x'], (0, 0), (18, 19)⟩] [['a']] 3 2
        ([] ++ ⟨some 25, some 1, "boom".toList, DiagCategory.error, 2304⟩ :: []) =
      mapTemplateDiags [⟨['x'], (0, 0), (18, 19)⟩] [['a']] 3 2 ([] ++ []) := by
  have h := unmapped_template_diag_dropped [⟨['x'], (0, 0), (18, 19)⟩] [['a']] 3 2
    ⟨some 25, some 1, "boom".toList, DiagCategory.error, 2304⟩ 25 rfl
    (by intro m hm; simp at hm; subst hm; simp)
  exact ⟨h.1, h.2 [] []⟩

/-- **C9.** Every content mutation of a virtual path's store entry — the
conditional change-event update, and both the install half and the
restore half of every transient install/restore pair in the change
handler and the point-query handlers — writes a strictly larger version
counter: along every handler's write trace the stored version strictly
increases, starting strictly above the pre-handler version. -/
theorem version_strictly_increases (st : VirtualStore)
    (updatedScript tempScript : List Char) (htmlNonEmpty : Bool)
    (hinv : st.content.isSome → st.version.isSome) :
    List.Chain' (fun a b => a.version.getD 0 < b.version.getD 0)
      (st :: (onChangeStoreFlow st updatedScript tempScript htmlNonEmpty).2) ∧
    (∀ {α : Type} (engine : EngineCall α),
      List.Chain' (fun a b => a.version.getD 0 < b.version.getD 0)
        (st :: (hoverSwapFlow st tempScript engine).2)) ∧
    (∀ {α β : Type} (diagCalls : EngineCall β) (completionsCall : EngineCall α),
      List.Chain' (fun a b => a.version.getD 0 < b.version.getD 0)
        (st :: (completionSwapFlow st tempScript diagCalls completionsCall).2)) := by
  refine ⟨?_, ?_, ?_⟩
  · unfold onChangeStoreFlow
    by_cases h1 : st.content = some updatedScript
    · simp only [h1, ne_eq, not_true_eq_false, if_false]
      by_cases h2 : htmlNonEmpty
      · have hcs : st.content.isSome := by rw [h1]; rfl
        have hvs := hinv hcs
        simp only [h2, h1, Bool.true_and, Option.isSome_some, if_true]
        simp [List.chain'_cons]
      · simp [h2]
    · simp only [h1, ne_eq, not_false_eq_true, if_true]
      by_cases h2 : htmlNonEmpty
      · simp only [h2, Bool.true_and, Option.isSome_some, if_true]
        simp [List.chain'_cons]
      · simp [h2]
  · intro α engine
    unfold hoverSwapFlow
    cases hc : st.content with
    | none => simp
    | some orig =>
      cases engine with
      | thrown => simp [List.chain'_cons]
      | ok a => simp [List.chain'_cons]
  · intro α β diagCalls completionsCall
    unfold completionSwapFlow
    cases hc : st.content with
    | none => simp
    | some orig =>
      cases diagCalls with
      | thrown => simp [List.chain'_cons]
      | ok b =>
        cases completionsCall with
        | thrown => simp [List.chain'_cons]
        | ok a => simp [List.chain'_cons]

/-- Witness for `version_strictly_increases`: durable content at
version 4 with a markup block present. -/
theorem version_strictly_increases_witness :
    List.Chain' (fun a b => a.version.getD 0 < b.version.getD 0)
      (VirtualStore.mk (some "old".toList) (some 4) ::
        (onChangeStoreFlow ⟨some "old".toList, some 4⟩ "new".toList
          "new(x);".toList true).2) ∧
    List.Chain' (fun a b => a.version.getD 0 < b.version.getD 0)
      (VirtualStore.mk (some "old".toList) (some 4) ::
        (hoverSwapFlow ⟨some "old".toList, some 4⟩ "new(x);".toList
          (EngineCall.thrown : EngineCall Unit)).2) := by
  have h := version_strictly_increases ⟨some "old".toList, some 4⟩
    "new".toList "new(x);".toList true (by intro; rfl)
  exact ⟨h.1, h.2.1 (EngineCall.thrown : EngineCall Unit)⟩

/-- **C1 (the code violates the claim).** The hover handler installs the
probe script and calls `getQuickInfoAtPosition` with no try/catch or
finally: when that engine call throws, the handler exits by exception
with the probe content still installed — the durable virtual document is
*not* restored on that exit path (the definition handler is identical).
By contrast the completion handler's `getCompletionsAtPosition` is inside
try/catch, so an exception thrown there is swallowed and the restore
lines still run.  Concrete run: durable `let x;` at version 5, probe
`p;`. -/
theorem hover_throw_leaves_probe_installed :
    (hoverSwapFlow ⟨some "let x;".toList, some 5⟩ "p;".toList
        (EngineCall.thrown : EngineCall Unit)).1 =
      Except.error ⟨some "p;".toList, some 6⟩ ∧
    some "p;".toList ≠ some "let x;".toList ∧
    (completionSwapFlow ⟨some "let x;".toList, some 5⟩ "p;".toList
        (EngineCall.ok ()) (EngineCall.thrown : EngineCall Unit)).1 =
      Except.ok (none, ⟨some "let x;".toList, some 7⟩) := by
  exact ⟨rfl, by decide, rfl⟩

/-! ## Position-map ordering (for C2) -/

theorem listIndexOf_spec (hay needle : List Char) (i : Nat)
    (h : listIndexOf hay needle = some i) :
    needle.isPrefixOf (hay.drop i) = true ∧ i + needle.length ≤ hay.length := by
  induction hay generalizing i with
  | nil =>
    rw [listIndexOf] at h
    by_cases hp : needle.isPrefixOf [] = true
    · rw [if_pos hp] at h
      cases h
      refine ⟨hp, ?_⟩
      have := List.isPrefixOf_iff_prefix.mp hp
      have := this.length_le
      simpa using this
    · rw [if_neg hp] at h
      cases h
  | cons c t ih =>
    rw [listIndexOf] at h
    by_cases hp : needle.isPrefixOf (c :: t) = true
    · rw [if_pos hp] at h
      cases h
      refine ⟨hp, ?_⟩
      have := (List.isPrefixOf_iff_prefix.mp hp).length_le
      simpa using this
    · rw [if_neg hp] at h
      simp only [Option.map_eq_some'] at h
      obtain ⟨j, hj, rfl⟩ := h
      have := ih j hj
      refine ⟨?_, ?_⟩
      · simpa using this.1
      · simp only [List.length_cons]
        omega

theorem listIndexOf_none (hay needle : List Char)
    (h : listIndexOf hay needle = none) :
    ∀ k, ¬ needle.isPrefixOf (hay.drop k) = true := by
  induction hay with
  | nil =>
    intro k
    rw [listIndexOf] at h
    by_cases hp : needle.isPrefixOf [] = true
    · rw [if_pos hp] at h; cases h
    · simpa using hp
  | cons c t ih =>
    intro k
    rw [listIndexOf] at h
    by_cases hp : needle.isPrefixOf (c :: t) = true
    · rw [if_pos hp] at h; cases h
    · rw [if_neg hp] at h
      simp only [Option.map_eq_none'] at h
      cases k with
      | zero => simpa using hp
      | succ k' => exact ih h k'

/-- A needle occurring inside `pre ++ needle ++ post` is found by
`jsIndexOf`, at an index where it fits inside the haystack. -/
theorem jsIndexOf_occurs (pre needle post : List Char) :
    ∃ i, listIndexOf (pre ++ needle ++ post) needle = some i ∧
      i + needle.length ≤ (pre ++ needle ++ post).length := by
  cases h : listIndexOf (pre ++ needle ++ post) needle with
  | some i => exact ⟨i, rfl, (listIndexOf_spec _ _ i h).2⟩
  | none =>
    exfalso
    have := listIndexOf_none _ _ h pre.length
    apply this
    rw [List.append_assoc, List.drop_append_of_le_length (Nat.le_refl _)]
    rw [List.drop_length, List.nil_append]
    exact List.isPrefixOf_iff_prefix.mpr ⟨post, rfl⟩

/-- The strict spatial ordering of the position map produced by `emit`:
every entry's range starts at or after the lower cursor bound, spans
exactly its expression text, and is followed by entries lying entirely
beyond it; the last entry ends at or before the final cursor. -/
def MonoChain : Nat → List Mapping → Nat → Prop
  | lo, [], hi => lo ≤ hi
  | lo, m :: rest, hi =>
    lo ≤ m.tsPos.1 ∧ m.tsPos.2 = m.tsPos.1 + m.value.length ∧
      MonoChain m.tsPos.2 rest hi

theorem MonoChain.mono (lo lo' hi hi' : Nat) (ms : List Mapping)
    (h : MonoChain lo ms hi) (hlo : lo' ≤ lo) (hhi : hi ≤ hi') :
    MonoChain lo' ms hi' := by
  cases ms with
  | nil => simp only [MonoChain] at h ⊢; omega
  | cons m rest =>
    simp only [MonoChain] at h ⊢
    refine ⟨by omega, h.2.1, ?_⟩
    exact MonoChain.mono _ _ _ _ rest h.2.2 (Nat.le_refl _) hhi

theorem MonoChain.append (lo mid hi : Nat) (ms ms' : List Mapping)
    (h1 : MonoChain lo ms mid) (h2 : MonoChain mid ms' hi) :
    MonoChain lo (ms ++ ms') hi := by
  induction ms generalizing lo with
  | nil =>
    simp only [MonoChain] at h1
    simpa using h2.mono _ _ _ _ _ h1 (Nat.le_refl _)
  | cons m rest ih =>
    simp only [MonoChain] at h1 ⊢
    exact ⟨h1.1, h1.2.1, ih _ h1.2.2⟩

theorem MonoChain.mem_lo (lo hi : Nat) (ms : List Mapping) (m : Mapping)
    (h : MonoChain lo ms hi) (hm : m ∈ ms) : lo ≤ m.tsPos.1 := by
  induction ms generalizing lo with
  | nil => cases hm
  | cons x rest ih =>
    simp only [MonoChain] at h
    rcases List.mem_cons.mp hm with rfl | hmem
    · exact h.1
    · have := ih _ h.2.2 hmem
      have hx2 : x.tsPos.1 ≤ x.tsPos.2 := by omega
      omega

/-- Anchor resolution: looking up a nonempty entry's own range start with
the mapper's `find?` yields that entry (earlier entries end before it). -/
theorem monoChain_find_self (lo hi : Nat) (ms : List Mapping) (m : Mapping)
    (h : MonoChain lo ms hi) (hm : m ∈ ms) (hval : m.value ≠ []) :
    ms.find? (fun x => decide (x.tsPos.1 ≤ m.tsPos.1) &&
      decide (m.tsPos.1 < x.tsPos.2)) = some m := by
  induction ms generalizing lo with
  | nil => cases hm
  | cons x rest ih =>
    simp only [MonoChain] at h
    rcases List.mem_cons.mp hm with rfl | hmem
    · rw [List.find?_cons_of_pos]
      rw [Bool.and_eq_true, decide_eq_true_eq, decide_eq_true_eq]
      have : 0 < m.value.length := List.length_pos.mpr hval
      omega
    · rw [List.find?_cons_of_neg, ih _ h.2.2 hmem]
      have hx : x.tsPos.2 ≤ m.tsPos.1 := MonoChain.mem_lo _ _ _ m h.2.2 hmem
      rw [Bool.and_eq_true, decide_eq_true_eq, decide_eq_true_eq]
      omega

mutual
/-- The position map emitted for one node is spatially ordered between
the entry cursor and the exit cursor. -/
theorem emitNode_chain (n : Blk) (cursor : Nat) :
    MonoChain cursor (emitNode n cursor).2.1 (emitNode n cursor).2.2 := by
  cases n with
  | ifB cond pos s children =>
    rw [emitNode]
    obtain ⟨i, hi, hfit⟩ := jsIndexOf_occurs "if (".toList cond ") \x7b".toList
    have hchild := emitList_chain children
      (cursor + ("if (".toList ++ cond ++ ") \x7b".toList).length + 1)
    simp only [MonoChain]
    rw [jsIndexOf, hi]
    refine ⟨by omega, by simp, ?_⟩
    refine (hchild.mono _ _ _ _ _ ?_ ?_)
    · simp only [Int.toNat_ofNat]
      omega
    · omega
  | forB cond d pos s children =>
    rw [emitNode]
    obtain ⟨i, hi, hfit⟩ := jsIndexOf_occurs "for (".toList cond ") \x7b".toList
    have hchild := emitList_chain children
      (cursor + ("for (".toList ++ cond ++ ") \x7b".toList).length + 1)
    simp only [MonoChain]
    rw [jsIndexOf, hi]
    refine ⟨by omega, by simp, ?_⟩
    refine (hchild.mono _ _ _ _ _ ?_ ?_)
    · simp only [Int.toNat_ofNat]
      omega
    · omega
  | expr value pos s =>
    rw [emitNode]
    obtain ⟨i, hi, hfit⟩ := jsIndexOf_occurs "  (".toList value [')', ';']
    simp only [MonoChain]
    rw [jsIndexOf, hi]
    refine ⟨by omega, by simp, ?_⟩
    simp only [MonoChain, Int.toNat_ofNat]
    omega

theorem emitList_chain (ns : List Blk) (cursor : Nat) :
    MonoChain cursor (emitList ns cursor).2.1 (emitList ns cursor).2.2 := by
  cases ns with
  | nil =>
    rw [emitList]
    simp [MonoChain]
  | cons n rest =>
    rw [emitList]
    exact MonoChain.append _ _ _ _ _ (emitNode_chain n cursor)
      (emitList_chain rest (emitNode n cursor).2.2)
end

/-- All `originalPos` values occurring in a block tree. -/
def blkPositions : Blk → List (Nat × Nat)
  | .ifB _ pos _ children =>
    pos :: (children.attach.map fun c => blkPositions c.1).flatten
  | .forB _ _ pos _ children =>
    pos :: (children.attach.map fun c => blkPositions c.1).flatten
  | .expr _ pos _ => [pos]
termination_by b => sizeOf b
decreasing_by
  · have := List.sizeOf_lt_of_mem c.2
    simp
    omega
  · have := List.sizeOf_lt_of_mem c.2
    simp
    omega

mutual
/-- Every emitted map entry's original position comes from some node of
the emitted tree. -/
theorem emitNode_originalPos (n : Blk) (cursor : Nat) (m : Mapping)
    (hm : m ∈ (emitNode n cursor).2.1) : m.originalPos ∈ blkPositions n := by
  cases n with
  | ifB cond pos s children =>
    rw [emitNode] at hm
    simp only at hm
    rcases List.mem_cons.mp hm with rfl | hmem
    · rw [blkPositions]
      exact List.mem_cons_self _ _
    · rw [blkPositions]
      apply List.mem_cons_of_mem
      have := emitList_originalPos children
        (cursor + ("if (".toList ++ cond ++ ") \x7b".toList).length + 1) m hmem
      obtain ⟨b, hb, hbm⟩ := this
      rw [List.mem_flatten]
      exact ⟨blkPositions b, List.mem_map.mpr
        ⟨⟨b, hb⟩, List.mem_attach _ _, rfl⟩, hbm⟩
  | forB cond d pos s children =>
    rw [emitNode] at hm
    simp only at hm
    rcases List.mem_cons.mp hm with rfl | hmem
    · rw [blkPositions]
      exact List.mem_cons_self _ _
    · rw [blkPositions]
      apply List.mem_cons_of_mem
      have := emitList_originalPos children
        (cursor + ("for (".toList ++ cond ++ ") \x7b".toList).length + 1) m hmem
      obtain ⟨b, hb, hbm⟩ := this
      rw [List.mem_flatten]
      exact ⟨blkPositions b, List.mem_map.mpr
        ⟨⟨b, hb⟩, List.mem_attach _ _, rfl⟩, hbm⟩
  | expr value pos s =>
    rw [emitNode] at hm
    simp only [List.mem_singleton] at hm
    subst hm
    rw [blkPositions]
    exact List.mem_cons_self _ _

theorem emitList_originalPos (ns : List Blk) (cursor : Nat) (m : Mapping)
    (hm : m ∈ (emitList ns cursor).2.1) :
    ∃ b ∈ ns, m.originalPos ∈ blkPositions b := by
  cases ns with
  | nil => rw [emitList] at hm; cases hm
  | cons n rest =>
    rw [emitList] at hm
    simp only at hm
    rcases List.mem_append.mp hm with hmem | hmem
    · exact ⟨n, List.mem_cons_self _ _, emitNode_originalPos n cursor m hmem⟩
    · obtain ⟨b, hb, hbm⟩ := emitList_originalPos rest (emitNode n cursor).2.2 m hmem
      exact ⟨b, List.mem_cons_of_mem _ hb, hbm⟩
end

/-- Every `positionAt` output is also the image of a *valid* offset
(one at most the document length): `positionAt` clamps. -/
theorem posAtLines_image (ls : List (List Char)) (hne : ls ≠ []) (off : Nat) :
    ∃ o, o ≤ totalLen ls ∧ posAtLines ls o = posAtLines ls off := by
  induction ls generalizing off with
  | nil => exact absurd rfl hne
  | cons l rest ih =>
    cases rest with
    | nil =>
      refine ⟨min off l.length, ?_, ?_⟩
      · simp [totalLen]
      · simp only [posAtLines]
        rw [Nat.min_eq_left (Nat.min_le_right _ _)]
    | cons l' rest' =>
      by_cases hoff : off ≤ l.length
      · exact ⟨off, by simp only [totalLen]; omega, rfl⟩
      · obtain ⟨o', ho', heq⟩ := ih (by simp) (off - (l.length + 1))
        refine ⟨l.length + 1 + o', by simp only [totalLen]; omega, ?_⟩
        simp only [posAtLines]
        rw [if_neg (by omega), if_neg hoff]
        have : l.length + 1 + o' - (l.length + 1) = o' := by omega
        rw [this, heq]

/-- **C2 (amended).** For every position-map entry produced by the
virtual script synthesizer *whose expression text is nonempty* (and whose
recorded original position is, as the parser guarantees, a `positionAt`
output over the markup block), mapping a template diagnostic whose
virtual start offset equals that entry's range start yields a diagnostic
whose range starts exactly at the entry's recorded original
`(line, column)` projected by the markup block's start line and
indentation width — the identity round-trip on the anchor point.
An entry with empty expression text (producible from `:if=""`) has an
empty virtual range that contains no offset, so its anchor is dropped
instead — see the counterexample. -/
theorem template_mapping_anchor_roundtrip (html script : List Char)
    (blks : List Blk) (hStart htmlIndent : Nat)
    (hpos : ∀ b ∈ blks, ∀ p ∈ blkPositions b,
      ∃ off, p = posAtLines (splitNl html) off)
    (m : Mapping) (hm : m ∈ (generateVirtualTsFromBlks blks script).2)
    (hval : m.value ≠ []) (dl : Nat) (msg : List Char) (cat : DiagCategory)
    (code : Nat) :
    ∃ diag,
      mapTemplateDiag (generateVirtualTsFromBlks blks script).2 (splitNl html)
        hStart htmlIndent ⟨some m.tsPos.1, some dl, msg, cat, code⟩ = some diag ∧
      diag.range.1 = (hStart + m.originalPos.1, htmlIndent + m.originalPos.2) := by
  have hmm : m ∈ (emitList blks (script.length + 1)).2.1 := hm
  have hchain := emitList_chain blks (script.length + 1)
  have hfind := monoChain_find_self _ _ _ m hchain hmm hval
  obtain ⟨off, hoff⟩ : ∃ off, m.originalPos = posAtLines (splitNl html) off := by
    obtain ⟨b, hb, hbp⟩ := emitList_originalPos blks (script.length + 1) m hmm
    exact hpos b hb _ hbp
  obtain ⟨o, ho, heq⟩ := posAtLines_image (splitNl html) (splitNl_ne_nil html) off
  have hstart : posAtLines (splitNl html)
      (offAtLines (splitNl html) m.originalPos) = m.originalPos := by
    rw [hoff, ← heq, offAt_posAt _ o ho (splitNl_ne_nil html), heq]
  have hgen : (generateVirtualTsFromBlks blks script).2 =
      (emitList blks (script.length + 1)).2.1 := rfl
  unfold mapTemplateDiag
  rw [hgen]
  simp only [hfind]
  refine ⟨_, rfl, ?_⟩
  simp only [hstart]

/-- **C2 counterexample.** The claim as stated fails for the entry
synthesized from a conditional with empty condition text (`:if=""`): its
virtual range `[2, 2)` is empty, so mapping a diagnostic at exactly that
entry's range start yields nothing — the diagnostic is dropped rather
than mapped to the entry's original position. -/
theorem template_mapping_anchor_counterexample :
    (generateVirtualTsFromBlks [Blk.ifB [] (0, 0) 0 []] ['s']).2 =
      [⟨[], (0, 0), (2, 2)⟩] ∧
    mapTemplateDiag (generateVirtualTsFromBlks [Blk.ifB [] (0, 0) 0 []] ['s']).2
        (splitNl []) 0 0 ⟨some 2, some 0, [], DiagCategory.error, 1⟩ = none := by
  have h2 : (generateVirtualTsFromBlks [Blk.ifB [] (0, 0) 0 []] ['s']).2 =
      [⟨[], (0, 0), (2, 2)⟩] := by
    simp [generateVirtualTsFromBlks, emitList, emitNode, jsIndexOf, listIndexOf]
  refine ⟨h2, ?_⟩
  rw [h2]
  simp [mapTemplateDiag]

/-- Witness for `template_mapping_anchor_roundtrip`: the single
interpolation entry `x` anchored at `(0, 0)` of markup `x`, with the
markup block starting at line 3 and indent 2. -/
theorem template_mapping_anchor_roundtrip_witness :
    ∃ diag,
      mapTemplateDiag (generateVirtualTsFromBlks [Blk.expr ['x'] (0, 0) 5] ['s']).2
        (splitNl ['x']) 3 2 ⟨some 5, some 1, [], DiagCategory.error, 1⟩ =
          some diag ∧
      diag.range.1 = (3 + 0, 2 + 0) := by
  have hm : (⟨['x'], (0, 0), (5, 6)⟩ : Mapping) ∈
      (generateVirtualTsFromBlks [Blk.expr ['x'] (0, 0) 5] ['s']).2 := by
    simp [generateVirtualTsFromBlks, emitList, emitNode, jsIndexOf, listIndexOf,
      List.isPrefixOf]
  exact template_mapping_anchor_roundtrip ['x'] ['s']
    [Blk.expr ['x'] (0, 0) 5] 3 2
    (by
      intro b hb p hp
      simp at hb
      subst hb
      simp [blkPositions] at hp
      subst hp
      exact ⟨0, by simp [splitNl, posAtLines]⟩)
    ⟨['x'], (0, 0), (5, 6)⟩ hm (by simp) 1 [] DiagCategory.error 1

/-- **C5.** A single markup element carrying both the loop directive
(`:for`) and the conditional directive (`:if`) parses to a loop node
whose child is the conditional node (not a sibling), and the synthesized
virtual document nests the emitted `if` statement inside the emitted
`for` statement. -/
theorem loop_conditional_same_element_nesting (html script rawF rawC : List Char)
    (s e : Nat) (hF : rawF ≠ []) (hC : rawC ≠ [])
    (h1 : interpScan html 0 = []) :
    parseTemplateBlocks html
        [⟨[(":for".toList, some rawF), (":if".toList, some rawC)], s, e, []⟩] =
      [Blk.forB
        (if !startsWithDeclKw (jsTrim ((rawF.drop 1).dropLast)) then
          "let ".toList ++ jsTrim ((rawF.drop 1).dropLast)
         else jsTrim ((rawF.drop 1).dropLast))
        (!startsWithDeclKw (jsTrim ((rawF.drop 1).dropLast)))
        (posAtLines (splitNl html) (jsIndexOfFrom html rawF s + 1).toNat) s
        [Blk.ifB (jsTrim ((rawC.drop 1).dropLast))
          (posAtLines (splitNl html) (jsIndexOfFrom html rawC s + 1).toNat) s []]] ∧
    ∀ (condF condC : List Char) (dF : Bool) (pF pC : Nat × Nat),
      (generateVirtualTsFromBlks
          [Blk.forB condF dF pF s [Blk.ifB condC pC s []]] script).1 =
        script ++ '\n' ::
          ("for (".toList ++ condF ++ ") \x7b".toList ++ '\n' ::
            ("if (".toList ++ condC ++ ") \x7b".toList ++
              '\n' :: '}' :: '\n' :: '}' :: ['\n'])) := by
  constructor
  · have hcollect : collectAttrExprs html (splitNl html)
        ⟨[(":for".toList, some rawF), (":if".toList, some rawC)], s, e, []⟩ = [] := by
      rw [collectAttrExprs]
      simp
    have hfind : findBlocks html (splitNl html)
        ⟨[(":for".toList, some rawF), (":if".toList, some rawC)], s, e, []⟩ =
        [⟨Blk.forB (if !startsWithDeclKw (jsTrim ((rawF.drop 1).dropLast)) then
            "let ".toList ++ jsTrim ((rawF.drop 1).dropLast)
           else jsTrim ((rawF.drop 1).dropLast))
            (!startsWithDeclKw (jsTrim ((rawF.drop 1).dropLast)))
            (posAtLines (splitNl html) (jsIndexOfFrom html rawF s + 1).toNat) s [],
            s, e⟩,
         ⟨Blk.ifB (jsTrim ((rawC.drop 1).dropLast))
            (posAtLines (splitNl html) (jsIndexOfFrom html rawC s + 1).toNat) s [],
            s, e⟩] := by
      rw [findBlocks]
      simp [hF, hC, attrLookup]
    have hinterp : interpExprMatches html = [] := by
      unfold interpExprMatches
      rw [h1]
      rfl
    unfold parseTemplateBlocks
    simp only [hinterp, List.map_cons, List.map_nil, hcollect, hfind, List.flatten,
      List.append_nil, List.nil_append]
    simp [nestIfIntoFor, nestLoop, nestStep, findMatchingForIdx, isIfBlk, isForBlk,
      List.range_succ, pushChild, rootIdxs, strictlyContains, buildBlk, parentIdxOf,
      innermostIdx, exprContainerIdx, appendChildren, sortBlks, sortNode,
      List.mergeSort]
  · intro condF condC dF pF pC
    simp [generateVirtualTsFromBlks, emitList, emitNode, joinNl]

/-- Witness for `loop_conditional_same_element_nesting`:
`<li :for="item of items" :if="x > 0"></li>`. -/
theorem loop_conditional_same_element_nesting_witness :
    parseTemplateBlocks "<li :for=\"item of items\" :if=\"x > 0\"></li>".toList
        [⟨[(":for".toList, some "\"item of items\"".toList),
           (":if".toList, some "\"x > 0\"".toList)], 0, 44, []⟩] =
      [Blk.forB
        (if !startsWithDeclKw (jsTrim (("\"item of items\"".toList.drop 1).dropLast)) then
          "let ".toList ++ jsTrim (("\"item of items\"".toList.drop 1).dropLast)
         else jsTrim (("\"item of items\"".toList.drop 1).dropLast))
        (!startsWithDeclKw (jsTrim (("\"item of items\"".toList.drop 1).dropLast)))
        (posAtLines (splitNl "<li :for=\"item of items\" :if=\"x > 0\"></li>".toList)
          (jsIndexOfFrom "<li :for=\"item of items\" :if=\"x > 0\"></li>".toList
            "\"item of items\"".toList 0 + 1).toNat) 0
        [Blk.ifB (jsTrim (("\"x > 0\"".toList.drop 1).dropLast))
          (posAtLines (splitNl "<li :for=\"item of items\" :if=\"x > 0\"></li>".toList)
            (jsIndexOfFrom "<li :for=\"item of items\" :if=\"x > 0\"></li>".toList
              "\"x > 0\"".toList 0 + 1).toNat) 0 []]] := by
  exact (loop_conditional_same_element_nesting
    "<li :for=\"item of items\" :if=\"x > 0\"></li>".toList "x;".toList
    "\"item of items\"".toList "\"x > 0\"".toList 0 44
    (by decide) (by decide) (by simp [interpScan])).1

/-! ## Region-capture characterization (for C7/C8) -/

theorem lastNlPrefixLen_none (w : List Char) (hw : '\n' ∉ w) :
    lastNlPrefixLen w = none := by
  induction w with
  | nil => rfl
  | cons c t ih =>
    rw [lastNlPrefixLen]
    rw [ih (fun hc => hw (List.mem_cons_of_mem _ hc))]
    rw [if_neg]
    intro hc
    exact hw (hc ▸ List.mem_cons_self _ _)

theorem lastNlPrefixLen_cons_nl (w : List Char) (hw : '\n' ∉ w) :
    lastNlPrefixLen ('\n' :: w) = some 1 := by
  rw [lastNlPrefixLen, lastNlPrefixLen_none w hw, if_pos rfl]

theorem labelBodyStart_structured (label body : List Char)
    (hws : '\n' ∉ body.takeWhile jsWs) :
    labelBodyStart label (label ++ '\n' :: body) = some (label.length + 1) := by
  unfold labelBodyStart
  rw [if_pos (List.isPrefixOf_iff_prefix.mpr ⟨'\n' :: body, rfl⟩)]
  rw [List.drop_left]
  have : ('\n' :: body).takeWhile jsWs = '\n' :: body.takeWhile jsWs := by
    simp [List.takeWhile_cons, jsWs]
  rw [this, lastNlPrefixLen_cons_nl _ hws]

theorem findLabelMatch_structured (label body : List Char) (hlab : label ≠ [])
    (hws : '\n' ∉ body.takeWhile jsWs) :
    findLabelMatch label (label ++ '\n' :: body) 0 = some (0, label.length + 1) := by
  cases hl : label with
  | nil => exact absurd hl hlab
  | cons c cs =>
    rw [← hl]
    have hcons : label ++ '\n' :: body = c :: (cs ++ '\n' :: body) := by
      rw [hl]; rfl
    rw [hcons, findLabelMatch, ← hcons, labelBodyStart_structured label body hws]
    simp

theorem termAt_of_head (terms : List (List Char)) (term b : List Char)
    (hmem : term ∈ terms) : termAt terms ('\n' :: (term ++ b)) = true := by
  rw [termAt, List.any_eq_true]
  refine ⟨0, List.mem_range.mpr (Nat.succ_pos _), ?_⟩
  rw [List.any_eq_true]
  exact ⟨term, hmem, by
    rw [List.drop_zero]
    exact List.isPrefixOf_iff_prefix.mpr ⟨b, rfl⟩⟩

theorem captureLen_of_no_term (terms : List (List Char)) (s : List Char)
    (h : ∀ i, termAt terms (s.drop i) = false) :
    captureLen terms s = s.length := by
  induction s with
  | nil => rfl
  | cons c t ih =>
    rw [captureLen]
    rw [if_neg (by rw [show (c :: t) = (c :: t).drop 0 from rfl]; exact (h 0) ▸ by simp)]
    rw [List.length_cons, ih (fun i => h (i + 1))]

theorem captureLen_append_term (terms : List (List Char)) (A s : List Char)
    (h : ∀ i < A.length, termAt terms (A.drop i ++ s) = false)
    (hs : termAt terms s = true) :
    captureLen terms (A ++ s) = A.length := by
  induction A with
  | nil =>
    cases s with
    | nil => simp [termAt] at hs
    | cons c t =>
      rw [List.nil_append, captureLen, if_pos hs]
      rfl
  | cons a A' ih =>
    rw [List.cons_append, captureLen]
    rw [if_neg (by
      have := h 0 (Nat.succ_pos _)
      simpa using this)]
    rw [List.length_cons, ih (fun i hi => by
      have := h (i + 1) (by simp only [List.length_cons]; omega)
      simpa using this)]

/-- The full region regex on a text that begins with the label, a
newline and a body whose leading whitespace holds no further newline:
the match is at position 0 and captures the body prefix of the computed
capture length. -/
theorem regexRegionMatch_structured (label body : List Char)
    (terms : List (List Char)) (hlab : label ≠ [])
    (hws : '\n' ∉ body.takeWhile jsWs) :
    regexRegionMatch label terms (label ++ '\n' :: body) =
      some (0, body.take (captureLen terms body)) := by
  unfold regexRegionMatch
  rw [findLabelMatch_structured label body hlab hws]
  have hdrop : (label ++ '\n' :: body).drop (label.length + 1) = body := by
    rw [show label.length + 1 = (label ++ ['\n']).length by simp]
    rw [show label ++ '\n' :: body = (label ++ ['\n']) ++ body by simp]
    rw [List.drop_left]
  simp only [hdrop]

/-- Terminated capture: the body is `A`, a newline, a terminator label
and a remainder, with no terminator match inside `A`. -/
theorem regexRegionMatch_term (label A term B : List Char)
    (terms : List (List Char)) (hlab : label ≠ []) (hmem : term ∈ terms)
    (hws : '\n' ∉ (A ++ '\n' :: (term ++ B)).takeWhile jsWs)
    (hno : ∀ i < A.length, termAt terms (A.drop i ++ '\n' :: (term ++ B)) = false) :
    regexRegionMatch label terms (label ++ '\n' :: (A ++ '\n' :: (term ++ B))) =
      some (0, A) := by
  rw [regexRegionMatch_structured label _ terms hlab hws]
  rw [captureLen_append_term terms A _ hno (termAt_of_head terms term B hmem)]
  rw [List.take_left]

/-- Unterminated capture: no terminator match anywhere in the body, the
capture runs to end-of-file. -/
theorem regexRegionMatch_eof (label body : List Char)
    (terms : List (List Char)) (hlab : label ≠ [])
    (hws : '\n' ∉ body.takeWhile jsWs)
    (hno : ∀ i, termAt terms (body.drop i) = false) :
    regexRegionMatch label terms (label ++ '\n' :: body) = some (0, body) := by
  rw [regexRegionMatch_structured label body terms hlab hws]
  rw [captureLen_of_no_term terms body hno, List.take_length]

theorem foldl_min_le_init (a : Nat) (l : List Nat) : l.foldl Nat.min a ≤ a := by
  induction l generalizing a with
  | nil => exact Nat.le_refl a
  | cons r rest ih =>
    rw [List.foldl_cons]
    exact Nat.le_trans (ih (Nat.min a r)) (Nat.min_le_left a r)

theorem foldl_min_le (c : Nat) (rest : List Nat) (x : Nat) (hx : x ∈ c :: rest) :
    rest.foldl Nat.min c ≤ x := by
  induction rest generalizing c with
  | nil =>
    rcases List.mem_singleton.mp hx with rfl
    exact Nat.le_refl x
  | cons r rest' ih =>
    rw [List.foldl_cons]
    rcases List.mem_cons.mp hx with rfl | hx'
    · exact Nat.le_trans (foldl_min_le_init _ _) (Nat.min_le_left x r)
    · rcases List.mem_cons.mp hx' with rfl | hx''
      · exact Nat.le_trans (foldl_min_le_init _ _) (Nat.min_le_right c x)
      · exact ih (Nat.min c r) (List.mem_cons_of_mem _ hx'')

theorem foldl_min_mem (c : Nat) (rest : List Nat) :
    rest.foldl Nat.min c ∈ c :: rest := by
  induction rest generalizing c with
  | nil => exact List.mem_singleton.mpr rfl
  | cons r rest' ih =>
    rw [List.foldl_cons]
    have := ih (Nat.min c r)
    rcases List.mem_cons.mp this with heq | hmem
    · rw [heq]
      rcases Nat.le_total c r with h | h
      · have hm : Nat.min c r = c := by
          show min c r = c
          omega
        rw [hm]
        exact List.mem_cons_self _ _
      · have hm : Nat.min c r = r := by
          show min c r = r
          omega
        rw [hm]
        exact List.mem_cons_of_mem _ (List.mem_cons_self _ _)
    · exact List.mem_cons_of_mem _ (List.mem_cons_of_mem _ hmem)

/-- The computed indent is at most every non-blank line's
leading-whitespace width (it is the minimum over those widths). -/
theorem minIndent_le (ls : List (List Char)) (l : List Char) (hl : l ∈ ls)
    (hnb : jsTrim l ≠ []) : minIndent ls ≤ (l.takeWhile jsWs).length := by
  unfold minIndent
  have hmem : (l.takeWhile jsWs).length ∈
      ((ls.filter fun l => jsTrim l ≠ []).map fun l => (l.takeWhile jsWs).length) := by
    exact List.mem_map_of_mem _ (List.mem_filter.mpr ⟨hl, by simpa using hnb⟩)
  cases hc : (ls.filter fun l => jsTrim l ≠ []).map fun l => (l.takeWhile jsWs).length with
  | nil => rw [hc] at hmem; cases hmem
  | cons c rest =>
    rw [hc] at hmem
    exact foldl_min_le c rest _ hmem

/-- The computed indent is attained by some non-blank line. -/
theorem minIndent_attained (ls : List (List Char))
    (hne : ∃ l ∈ ls, jsTrim l ≠ []) :
    ∃ l ∈ ls, jsTrim l ≠ [] ∧ (l.takeWhile jsWs).length = minIndent ls := by
  unfold minIndent
  cases hc : (ls.filter fun l => jsTrim l ≠ []).map fun l => (l.takeWhile jsWs).length with
  | nil =>
    exfalso
    obtain ⟨l, hl, hnb⟩ := hne
    have : (l.takeWhile jsWs).length ∈
        ((ls.filter fun l => jsTrim l ≠ []).map fun l => (l.takeWhile jsWs).length) :=
      List.mem_map_of_mem _ (List.mem_filter.mpr ⟨hl, by simpa using hnb⟩)
    rw [hc] at this
    cases this
  | cons c rest =>
    have hmem := foldl_min_mem c rest
    rw [← hc] at hmem
    obtain ⟨l, hlf, hlen⟩ := List.mem_map.mp hmem
    have hfil := List.mem_filter.mp hlf
    exact ⟨l, hfil.1, by simpa using hfil.2, hlen⟩

/-- A line whose leading whitespace is all spaces and at least `mi` wide
starts with `mi` spaces. -/
theorem spaces_isPrefixOf (l : List Char) (mi : Nat)
    (hall : ∀ c ∈ l.takeWhile jsWs, c = ' ')
    (hge : mi ≤ (l.takeWhile jsWs).length) :
    (spaces mi).isPrefixOf l = true := by
  have htw : l.takeWhile jsWs = List.replicate (l.takeWhile jsWs).length ' ' :=
    List.eq_replicate_of_mem hall
  have hsplit : l = l.takeWhile jsWs ++ l.dropWhile jsWs :=
    (List.takeWhile_append_dropWhile _ _).symm
  rw [List.isPrefixOf_iff_prefix]
  refine ⟨List.replicate ((l.takeWhile jsWs).length - mi) ' ' ++ l.dropWhile jsWs, ?_⟩
  conv_rhs => rw [hsplit, htw]
  rw [← List.append_assoc]
  unfold spaces
  rw [← List.replicate_add]
  rw [Nat.add_sub_cancel' hge]

/-- A sub-sequence check (JS `includes`-style): does `pat` occur
contiguously in the line? -/
def containsSub (pat : List Char) : List Char → Bool
  | [] => pat.isPrefixOf []
  | l@(_ :: t) => pat.isPrefixOf l || containsSub pat t

theorem containsSub_tail (pat l : List Char) (h : containsSub pat l = false) :
    containsSub pat l.tail = false := by
  cases l with
  | nil => exact h
  | cons c t =>
    rw [containsSub, Bool.or_eq_false_iff] at h
    exact h.2

theorem containsSub_drop (pat l : List Char) (n : Nat)
    (h : containsSub pat l = false) : containsSub pat (l.drop n) = false := by
  induction n with
  | zero => exact h
  | succ n ih =>
    rw [← List.tail_drop]
    exact containsSub_tail _ _ ih

/-- A line with no `<//` occurrence is left unchanged by the sanitizer. -/
theorem sanitizeLine_eq_self (l : List Char)
    (h : containsSub "<//".toList l = false) : sanitizeLine l = l := by
  induction l using sanitizeLine.induct with
  | case1 => rw [sanitizeLine]
  | case2 rest hw =>
    exfalso
    rw [containsSub, Bool.or_eq_false_iff] at h
    have : ("<//".toList).isPrefixOf ('<' :: '/' :: '/' :: rest) = true := by
      rw [List.isPrefixOf_iff_prefix]
      exact ⟨rest, rfl⟩
    rw [this] at h
    cases h.1
  | case3 rest hw =>
    exfalso
    rw [containsSub, Bool.or_eq_false_iff] at h
    have : ("<//".toList).isPrefixOf ('<' :: '/' :: '/' :: rest) = true := by
      rw [List.isPrefixOf_iff_prefix]
      exact ⟨rest, rfl⟩
    rw [this] at h
    cases h.1
  | case4 c rest hne ih =>
    rw [sanitizeLine]
    · rw [ih (containsSub_tail _ _ h)]
    · exact hne


theorem termAt_drop_all_false (terms : List (List Char)) (s : List Char)
    (h : ∀ i < s.length, termAt terms (s.drop i) = false) :
    ∀ i, termAt terms (s.drop i) = false := by
  intro i
  by_cases hi : i < s.length
  · exact h i hi
  · rw [List.drop_eq_nil_of_le (by omega)]
    rfl

theorem extractScript_capture (text cap : List Char) (p : Nat)
    (h : regexRegionMatch scriptLabel scriptTerminators text = some (p, cap)) :
    (extractScript text).script = joinNl (stripTwoLines cap) := by
  unfold extractScript
  rw [h]

theorem extractHTML_capture (text cap : List Char) (p : Nat)
    (h : regexRegionMatch htmlLabel htmlTerminators text = some (p, cap)) :
    (extractHTML text).html =
      joinNl ((splitNl cap).map fun l =>
        sanitizeLine (stripLine (minIndent (splitNl cap)) l)) ∧
    (extractHTML text).indent = minIndent (splitNl cap) := by
  unfold extractHTML
  rw [h]
  exact ⟨rfl, rfl⟩

theorem extractStyle_capture (text cap : List Char) (p : Nat)
    (h : regexRegionMatch styleLabel styleTerminators text = some (p, cap)) :
    (extractStyle text).css =
      joinNl ((splitNl cap).map (stripLine (minIndent (splitNl cap)))) ∧
    (extractStyle text).indent = minIndent (splitNl cap) := by
  unfold extractStyle
  rw [h]
  exact ⟨rfl, rfl⟩

/-- Modelled from the spec (§4.1, C8): the script region capture as the
claim states it — ending at whichever other region label (`html:` or
`style:`) follows first.  The code's `extractScript` terminates the
capture at `style:` only; this definition is the claim's version, used to
exhibit the divergence. -/
def claimedScriptRegionMatch (text : List Char) : Option (Nat × List Char) :=
  regexRegionMatch scriptLabel [htmlLabel, styleLabel] text

/-- **C8 counterexample.** On `script:\n  a\nhtml:\n  b` the script
extractor captures through the `html:` label to end-of-file (`style:` is
the only terminator in its regex), while the claim says the script region
ends at the first following `html:` or `style:` label (which would give
`  a`).  Also, the label need not be line-initial: `xscript:` matches. -/
theorem script_region_terminator_counterexample :
    (extractScript "script:\n  a\nhtml:\n  b".toList).script =
      "a\nhtml:\nb".toList ∧
    claimedScriptRegionMatch "script:\n  a\nhtml:\n  b".toList =
      some (0, "  a".toList) ∧
    (extractScript "script:\n  a\nhtml:\n  b".toList).script ≠
      joinNl (stripTwoLines "  a".toList) ∧
    (extractScript "xscript:\n  a".toList).script = ['a'] := by
  refine ⟨by decide, by decide, by decide, by decide⟩

/-- **C8 (amended).** Each region extractor captures from the first
occurrence of its label followed by optional whitespace and a newline, up
to its regex terminator — a newline plus optional whitespace followed by:
`style:` *only* for the script region (a following `html:` label does not
end it and is captured into the script), `script:` or `style:` for the
markup region, and `script:` or `html:` for the style region — or
end-of-file. -/
theorem region_capture_boundaries :
    (∀ A B : List Char,
      '\n' ∉ (A ++ '\n' :: (styleLabel ++ B)).takeWhile jsWs →
      (∀ i < A.length,
        termAt scriptTerminators (A.drop i ++ '\n' :: (styleLabel ++ B)) = false) →
      (extractScript (scriptLabel ++ '\n' :: (A ++ '\n' :: (styleLabel ++ B)))).script =
        joinNl (stripTwoLines A)) ∧
    (∀ A : List Char, '\n' ∉ A.takeWhile jsWs →
      (∀ i, termAt scriptTerminators (A.drop i) = false) →
      (extractScript (scriptLabel ++ '\n' :: A)).script = joinNl (stripTwoLines A)) ∧
    (∀ A B term : List Char, term ∈ htmlTerminators →
      '\n' ∉ (A ++ '\n' :: (term ++ B)).takeWhile jsWs →
      (∀ i < A.length,
        termAt htmlTerminators (A.drop i ++ '\n' :: (term ++ B)) = false) →
      (extractHTML (htmlLabel ++ '\n' :: (A ++ '\n' :: (term ++ B)))).html =
        joinNl ((splitNl A).map fun l =>
          sanitizeLine (stripLine (minIndent (splitNl A)) l))) ∧
    (∀ A B term : List Char, term ∈ styleTerminators →
      '\n' ∉ (A ++ '\n' :: (term ++ B)).takeWhile jsWs →
      (∀ i < A.length,
        termAt styleTerminators (A.drop i ++ '\n' :: (term ++ B)) = false) →
      (extractStyle (styleLabel ++ '\n' :: (A ++ '\n' :: (term ++ B)))).css =
        joinNl ((splitNl A).map (stripLine (minIndent (splitNl A))))) := by
  refine ⟨?_, ?_, ?_, ?_⟩
  · intro A B hws hno
    exact extractScript_capture _ A 0
      (regexRegionMatch_term scriptLabel A styleLabel B scriptTerminators
        (by decide) (List.mem_singleton.mpr rfl) hws hno)
  · intro A hws hno
    exact extractScript_capture _ A 0
      (regexRegionMatch_eof scriptLabel A scriptTerminators (by decide) hws hno)
  · intro A B term hterm hws hno
    exact (extractHTML_capture _ A 0
      (regexRegionMatch_term htmlLabel A term B htmlTerminators
        (by decide) hterm hws hno)).1
  · intro A B term hterm hws hno
    exact (extractStyle_capture _ A 0
      (regexRegionMatch_term styleLabel A term B styleTerminators
        (by decide) hterm hws hno)).1

/-- Witness for `region_capture_boundaries`: concrete regions.  In the
second conjunct the body contains an `html:` label and the script capture
runs through it to end-of-file. -/
theorem region_capture_boundaries_witness :
    (extractScript (scriptLabel ++ '\n' ::
        ("  a".toList ++ '\n' :: (styleLabel ++ "\n  b".toList)))).script =
      joinNl (stripTwoLines "  a".toList) ∧
    (extractScript (scriptLabel ++ '\n' :: "  a\nhtml:\n  b".toList)).script =
      joinNl (stripTwoLines "  a\nhtml:\n  b".toList) ∧
    (extractHTML (htmlLabel ++ '\n' ::
        ("  <p>".toList ++ '\n' :: (styleLabel ++ "\n b".toList)))).html =
      joinNl ((splitNl "  <p>".toList).map fun l =>
        sanitizeLine (stripLine (minIndent (splitNl "  <p>".toList)) l)) := by
  have h := region_capture_boundaries
  refine ⟨h.1 "  a".toList "\n  b".toList (by decide) (by decide), ?_, ?_⟩
  · exact h.2.1 "  a\nhtml:\n  b".toList (by decide)
      (termAt_drop_all_false _ _ (by decide))
  · exact h.2.2.1 "  <p>".toList "\n b".toList styleLabel
      (by decide) (by decide) (by decide)

/-- **C7 counterexample.** The script extractor strips a *fixed* two
columns, not the computed minimum: on a script region whose single line
is indented four spaces, the minimum leading-whitespace width is 4 and
minimum-stripping would yield `x`, but `extractScript` yields `  x`. -/
theorem script_fixed_indent_counterexample :
    (extractScript "script:\n    x".toList).script = "  x".toList ∧
    minIndent (splitNl "    x".toList) = 4 ∧
    joinNl ((splitNl "    x".toList).map fun l =>
      l.drop (minIndent (splitNl "    x".toList))) = ['x'] ∧
    (extractScript "script:\n    x".toList).script ≠
      joinNl ((splitNl "    x".toList).map fun l =>
        l.drop (minIndent (splitNl "    x".toList))) := by
  refine ⟨by decide, by decide, by decide, by decide⟩

/-- **C7 (amended).** The markup and style extractors compute the minimum
leading-whitespace width over the region's non-blank lines (`minIndent`
is a lower bound on every non-blank line's leading width and is attained
by one of them) and strip exactly that many columns from every line that
begins with that many spaces — in particular from every non-blank line
whose indentation consists of spaces.  The script extractor instead
strips a fixed two columns from every captured line that begins with two
spaces, regardless of the region's minimum. -/
theorem minimum_indent_stripping :
    (∀ (ls : List (List Char)) (l : List Char), l ∈ ls → jsTrim l ≠ [] →
      minIndent ls ≤ (l.takeWhile jsWs).length) ∧
    (∀ ls : List (List Char), (∃ l ∈ ls, jsTrim l ≠ []) →
      ∃ l ∈ ls, jsTrim l ≠ [] ∧ (l.takeWhile jsWs).length = minIndent ls) ∧
    (∀ (ls : List (List Char)) (l : List Char), l ∈ ls → jsTrim l ≠ [] →
      (∀ c ∈ l.takeWhile jsWs, c = ' ') →
      stripLine (minIndent ls) l = l.drop (minIndent ls)) ∧
    (∀ A B term : List Char, term ∈ htmlTerminators →
      '\n' ∉ (A ++ '\n' :: (term ++ B)).takeWhile jsWs →
      (∀ i < A.length,
        termAt htmlTerminators (A.drop i ++ '\n' :: (term ++ B)) = false) →
      (∀ l ∈ splitNl A, containsSub "<//".toList l = false) →
      (extractHTML (htmlLabel ++ '\n' :: (A ++ '\n' :: (term ++ B)))).html =
        joinNl ((splitNl A).map (stripLine (minIndent (splitNl A)))) ∧
      (extractHTML (htmlLabel ++ '\n' :: (A ++ '\n' :: (term ++ B)))).indent =
        minIndent (splitNl A)) ∧
    (∀ A B term : List Char, term ∈ styleTerminators →
      '\n' ∉ (A ++ '\n' :: (term ++ B)).takeWhile jsWs →
      (∀ i < A.length,
        termAt styleTerminators (A.drop i ++ '\n' :: (term ++ B)) = false) →
      (extractStyle (styleLabel ++ '\n' :: (A ++ '\n' :: (term ++ B)))).css =
        joinNl ((splitNl A).map (stripLine (minIndent (splitNl A)))) ∧
      (extractStyle (styleLabel ++ '\n' :: (A ++ '\n' :: (term ++ B)))).indent =
        minIndent (splitNl A)) ∧
    (∀ A : List Char, '\n' ∉ A.takeWhile jsWs →
      (∀ i, termAt scriptTerminators (A.drop i) = false) →
      (extractScript (scriptLabel ++ '\n' :: A)).script =
        joinNl (stripTwoLines A)) := by
  have hstrip : ∀ (ls : List (List Char)) (l : List Char), l ∈ ls → jsTrim l ≠ [] →
      (∀ c ∈ l.takeWhile jsWs, c = ' ') →
      stripLine (minIndent ls) l = l.drop (minIndent ls) := by
    intro ls l hl hnb hall
    unfold stripLine
    rw [if_pos (spaces_isPrefixOf l (minIndent ls) hall (minIndent_le ls l hl hnb))]
  refine ⟨minIndent_le, minIndent_attained, hstrip, ?_, ?_, ?_⟩
  · intro A B term hterm hws hno hsan
    have hcap := extractHTML_capture _ A 0
      (regexRegionMatch_term htmlLabel A term B htmlTerminators
        (by decide) hterm hws hno)
    refine ⟨?_, hcap.2⟩
    rw [hcap.1]
    congr 1
    apply List.map_congr_left
    intro l hl
    unfold stripLine
    split
    · exact sanitizeLine_eq_self _ (containsSub_drop _ _ _ (hsan l hl))
    · exact sanitizeLine_eq_self _ (hsan l hl)
  · intro A B term hterm hws hno
    exact extractStyle_capture _ A 0
      (regexRegionMatch_term styleLabel A term B styleTerminators
        (by decide) hterm hws hno)
  · intro A hws hno
    exact extractScript_capture _ A 0
      (regexRegionMatch_eof scriptLabel A scriptTerminators (by decide) hws hno)

/-- Witness for `minimum_indent_stripping`: a markup region whose lines
are indented two and three spaces (minimum 2). -/
theorem minimum_indent_stripping_witness :
    minIndent (splitNl "  <p>\n   <b>".toList) ≤
      ("  <p>".toList.takeWhile jsWs).length ∧
    stripLine (minIndent (splitNl "  <p>\n   <b>".toList)) "   <b>".toList =
      "   <b>".toList.drop (minIndent (splitNl "  <p>\n   <b>".toList)) ∧
    (extractHTML (htmlLabel ++ '\n' ::
        ("  <p>\n   <b>".toList ++ '\n' :: (styleLabel ++ " b".toList)))).html =
      joinNl ((splitNl "  <p>\n   <b>".toList).map
        (stripLine (minIndent (splitNl "  <p>\n   <b>".toList)))) := by
  have h := minimum_indent_stripping
  refine ⟨?_, ?_, ?_⟩
  · exact h.1 (splitNl "  <p>\n   <b>".toList) "  <p>".toList
      (by decide) (by decide)
  · exact h.2.2.1 (splitNl "  <p>\n   <b>".toList) "   <b>".toList
      (by decide) (by decide) (by decide)
  · exact (h.2.2.2.1 "  <p>\n   <b>".toList " b".toList styleLabel
      (by decide) (by decide) (by decide) (by decide)).1

end Lunas
